import Mathlib

/-!
Verification of the horreum LSM key-value store (Rust) against its
natural-language specification.

This file shallowly embeds the core data structures and algorithms of the
repository as executable Lean definitions and proves (or refutes) the frozen
claims about them:

* the record codec (src/format.rs, InternalPair::serialize /
  InternalPair::deserialize_from_bytes),
* the MemTable accounting and flush trigger (src/memtable/mod.rs),
* the sparse block index (src/sstable/index.rs, Index::get),
* the SSTable point lookup (src/sstable/table.rs, Table::get),
* the SSTable manager read path, compaction trigger and k-way compaction
  merge (src/sstable/manager.rs).

Byte strings (Rust Vec of u8) are modelled as List Nat, ordered
lexicographically exactly as Rust orders Vec of u8.  Machine integers
(usize) are modelled as unbounded Nat; the one place where wrap-around
arithmetic occurs in the source (the MemTable size counter) is noted at its
definition.
-/

/-- Keys are byte strings; lexicographic order matches the derived Ord on
Rust Vec of u8. -/
abbrev Key := List Nat

/-- Values are byte strings. -/
abbrev Value := List Nat

/-- Embeds struct InternalPair of src/format.rs: a key together with an
optional value; value = none is the tombstone representation. -/
structure InternalPair where
  key : Key
  value : Option Value
deriving DecidableEq, Repr

/- ------------------------------------------------------------------ -/
/- Record codec (src/format.rs)                                        -/
/- ------------------------------------------------------------------ -/

/-- Little-endian byte decomposition, k bytes.  Embeds what bincode
serialize does to a usize (fixed 8-byte little-endian) when k = 8. -/
def toLEBytes : Nat → Nat → List Nat
  | 0, _ => []
  | k + 1, n => n % 256 :: toLEBytes k (n / 256)

/-- Little-endian byte recomposition; embeds bincode deserialize of a
usize from 8 little-endian bytes. -/
def fromLEBytes : List Nat → Nat
  | [] => 0
  | b :: rest => b + 256 * fromLEBytes rest

/-- Embeds InternalPair::serialize (src/format.rs, lines 22-36): 8-byte LE
key length, 8-byte LE value length (0 for a tombstone), key bytes, value
bytes (absent for a tombstone). -/
def InternalPair.serialize (p : InternalPair) : List Nat :=
  toLEBytes 8 p.key.length ++
    toLEBytes 8 (match p.value with | some v => v.length | none => 0) ++
    p.key ++ (match p.value with | some v => v | none => [])

/-- Embeds InternalPair::serialize_flatten: concatenation of the individual
encodings with no framing. -/
def InternalPair.serialize_flatten (pairs : List InternalPair) : List Nat :=
  (pairs.map InternalPair.serialize).flatten

/-- Embeds InternalPair::deserialize_inner (src/format.rs, lines 62-76),
reading one record off the front of a byte stream and returning it together
with the unconsumed remainder.  none models the MalformedRecord error of a
read_exact past end-of-buffer. -/
def InternalPair.deserialize_one (bs : List Nat) : Option (InternalPair × List Nat) :=
  if bs.length < 16 then none
  else
    let key_length := fromLEBytes (bs.take 8)
    let value_length := fromLEBytes ((bs.drop 8).take 8)
    let content := bs.drop 16
    if content.length < key_length + value_length then none
    else
      let key := content.take key_length
      let value :=
        if value_length > 0 then some ((content.drop key_length).take value_length)
        else none
      some (⟨key, value⟩, content.drop (key_length + value_length))

/-- Embeds InternalPair::deserialize_from_bytes (src/format.rs, lines
49-58): repeatedly deserialize single records while bytes remain; any
failure aborts with the error (none). -/
def InternalPair.deserialize_from_bytes (bs : List Nat) : Option (List InternalPair) :=
  if _hbs : bs = [] then some []
  else
    match h : InternalPair.deserialize_one bs with
    | none => none
    | some (p, rest) =>
      match InternalPair.deserialize_from_bytes rest with
      | none => none
      | some ps => some (p :: ps)
termination_by bs.length
decreasing_by
  unfold InternalPair.deserialize_one at h
  split at h
  · exact absurd h (by simp)
  · next h16 =>
    dsimp only at h
    split at h
    · exact absurd h (by simp)
    · next hc =>
      simp only [Option.some.injEq, Prod.mk.injEq] at h
      have hrest : rest = (bs.drop 16).drop
          (fromLEBytes (bs.take 8) + fromLEBytes ((bs.drop 8).take 8)) := h.2.symm
      subst hrest
      simp only [List.length_drop]
      omega

/- ------------------------------------------------------------------ -/
/- MemTable (src/memtable/mod.rs)                                      -/
/- ------------------------------------------------------------------ -/

/-- Association-list embedding of the BTreeMap from Vec of u8 to Option
Vec of u8 held by the MemTable; an entry (k, none) is a tombstone.  Keys
are unique (insertion replaces). -/
abbrev MemMap := List (Key × Option Value)

/-- Lookup in the map: some (some v) is a live entry, some none a
tombstone, none absence.  Embeds BTreeMap::get. -/
def MemMap.get (m : MemMap) (k : Key) : Option (Option Value) :=
  (m.find? (fun e => e.1 = k)).map Prod.snd

/-- Replace-or-append insertion; embeds BTreeMap::insert (the returned
previous entry is obtained separately via MemMap.get). -/
def MemMap.insert (m : MemMap) (k : Key) (v : Option Value) : MemMap :=
  match m with
  | [] => [(k, v)]
  | e :: rest => if e.1 = k then (k, v) :: rest else e :: MemMap.insert rest k v

/-- State of a MemTable: the map, the actual_size counter and size_limit
(src/memtable/mod.rs, struct MemTable).  The counter is a usize in the
source; all reachable counter values fit a usize, so it is modelled as an
unbounded Nat, and the one wrapping subtraction of the source
(new_value_len - value.len() inside put) is expressed with the equal
truncated form counter + new - old, which coincides with the wrapped usize
result on every reachable state. -/
structure MemTable where
  map : MemMap
  actual_size : Nat
  size_limit : Nat
deriving Repr

/-- Empty MemTable with a given size_limit; embeds MemTable::new. -/
def MemTable.new (limit : Nat) : MemTable := ⟨[], 0, limit⟩

/-- Result of a single MemTable operation: the new state, the returned
previous value, and whether this operation performed a flush. -/
structure MemStepResult where
  state : MemTable
  ret : Option Value
  flushed : Bool
deriving Repr

/-- The counter value right after the accounting update of MemTable::put
(src/memtable/mod.rs, lines 78-94), before the flush check: the three-way
match on the previous entry adds the value-length difference for a live
previous entry, the value length for a tombstoned one, and key plus value
length for a fresh key. -/
def MemTable.put_size (s : MemTable) (k : Key) (v : Value) : Nat :=
  match MemMap.get s.map k with
  | some (some old) => s.actual_size + v.length - old.length
  | some none => s.actual_size + v.length
  | none => s.actual_size + k.length + v.length

/-- Embeds MemTable::put (src/memtable/mod.rs, lines 75-105): insert the
live entry, adjust the counter, then flush (clear the map, reset the
counter to 0) exactly when the updated counter strictly exceeds
size_limit.  Returns the previous live value (tombstone and absence give
none). -/
def MemTable.put (s : MemTable) (k : Key) (v : Value) : MemStepResult :=
  let prev := MemMap.get s.map k
  let map1 := MemMap.insert s.map k (some v)
  let size1 := s.put_size k v
  if size1 > s.size_limit then
    ⟨⟨[], 0, s.size_limit⟩, prev.join, true⟩
  else
    ⟨⟨map1, size1, s.size_limit⟩, prev.join, false⟩

/-- Embeds MemTable::delete (src/memtable/mod.rs, lines 109-120): insert a
tombstone unconditionally, subtract the previous value length from the
counter only when the previous entry was live, return the previous live
value.  Never flushes. -/
def MemTable.delete (s : MemTable) (k : Key) : MemStepResult :=
  let prev := (MemMap.get s.map k).join
  let map1 := MemMap.insert s.map k none
  let size1 :=
    match prev with
    | some old => s.actual_size - old.length
    | none => s.actual_size
  ⟨⟨map1, size1, s.size_limit⟩, prev, false⟩

/-- Embeds MemTable::get (src/memtable/mod.rs, lines 69-72):
map.get(key).cloned().flatten() — a tombstone and an absent key both
produce none. -/
def MemTable.get (s : MemTable) (k : Key) : Option Value :=
  (MemMap.get s.map k).join

/-- Operation alphabet for MemTable runs. -/
inductive MemOp where
  | put (k : Key) (v : Value)
  | del (k : Key)
deriving DecidableEq, Repr

/-- Key an operation touches. -/
def MemOp.key : MemOp → Key
  | .put k _ => k
  | .del k => k

/-- Apply one operation. -/
def MemTable.step (s : MemTable) : MemOp → MemStepResult
  | .put k v => s.put k v
  | .del k => s.delete k

/-- Run a sequence of operations from a given state, recording whether any
flush fired along the way. -/
def MemTable.run (s : MemTable) (ops : List MemOp) : MemTable × Bool :=
  ops.foldl (fun acc op =>
    let r := acc.1.step op
    (r.state, acc.2 || r.flushed)) (s, false)

/-- Sum of len(key) + len(value) over live (non-tombstone) entries of the
map — the quantity the spec says the counter tracks. -/
def MemMap.liveSize (m : MemMap) : Nat :=
  (m.map (fun e =>
    match e.2 with
    | some v => e.1.length + v.length
    | none => 0)).sum

/- ------------------------------------------------------------------ -/
/- Compaction trigger (src/sstable/manager.rs, should_compact)         -/
/- ------------------------------------------------------------------ -/

/-- Embeds the f64 comparison newer / oldest > ratio of should_compact.
The source computes both sides in f64; this model uses exact rationals,
which agrees with the IEEE double comparison for all SSTable sizes the
system can produce (divergence would need sizes around 2^45 bytes and a
ratio within one ulp of the quotient).  The special cases of float
division are kept: 0/0 is NaN and NaN > r is false; x/0 for x > 0 is
+infinity, which exceeds every ratio. -/
def ratioExceeds (newer oldest : Nat) (ratio : ℚ) : Bool :=
  if oldest = 0 then
    if newer = 0 then false else true
  else
    (newer : ℚ) / (oldest : ℚ) > ratio

/-- Embeds SSTableManager::should_compact (src/sstable/manager.rs, lines
170-194) on the list of table sizes (oldest first): with no tables, never;
otherwise compare the summed size of all newer tables against the oldest
table size and return the total size when the ratio exceeds the trigger. -/
def should_compact (sizes : List Nat) (ratio : ℚ) : Option Nat :=
  match sizes with
  | [] => none
  | oldest :: _ =>
    let total := sizes.sum
    let newer := total - oldest
    if ratioExceeds newer oldest ratio then some total else none

/- ------------------------------------------------------------------ -/
/- Sparse block index (src/sstable/index.rs)                           -/
/- ------------------------------------------------------------------ -/

instance : Inhabited InternalPair := ⟨⟨[], none⟩⟩

/-- Embeds struct Block of src/sstable/index.rs: first key of a block, its
byte position in the file and its byte length. -/
structure Block where
  key : Key
  position : Nat
  length : Nat
deriving DecidableEq, Repr

instance : Inhabited Block := ⟨⟨[], 0, 0⟩⟩

/-- Embeds slice::chunks(stride) as used by Index::new: split into
consecutive runs of stride records, the last one possibly shorter.  The
source panics on stride = 0; here stride = 0 behaves like stride = 1 and
every theorem assumes stride is at least 1. -/
def chunksOf (stride : Nat) : List InternalPair → List (List InternalPair)
  | [] => []
  | p :: rest => (p :: rest.take (stride - 1)) :: chunksOf stride (rest.drop (stride - 1))
termination_by l => l.length
decreasing_by
  simp only [List.length_drop, List.length_cons]
  omega

/-- Offset-accumulating constructor for the block list of Index::new:
block i starts where the serialized bytes of the previous chunks end and
spans the serialized bytes of chunk i; its key is the first key of the
chunk. -/
def buildBlocks : List (List InternalPair) → Nat → List Block
  | [], _ => []
  | c :: cs, offset =>
    let data := InternalPair.serialize_flatten c
    ⟨c.headI.key, offset, data.length⟩ :: buildBlocks cs (offset + data.length)

/-- Embeds Index::new (src/sstable/index.rs, lines 53-65). -/
def Index.new (pairs : List InternalPair) (stride : Nat) : List Block :=
  buildBlocks (chunksOf stride pairs) 0

/-- Embeds Index::get (src/sstable/index.rs, lines 70-76).  The source
calls slice::binary_search_by_key on the block keys; that std function is
modelled by its contract, which is deterministic on the strictly sorted
key sequences Index::new produces from sorted unique input: an exact match
returns its index (Ok), otherwise the insertion point (Err), that is the
number of keys smaller than the probe.  Err(0) becomes none, Err(pos)
becomes the preceding block, and the found position is mapped to the
block's (position, length) extent. -/
def Index.get (items : List Block) (k : Key) : Option (Nat × Nat) :=
  let found :=
    match List.findIdx? (fun b : Block => decide (b.key = k)) items with
    | some i => some i
    | none =>
      let pos := items.countP (fun b : Block => decide (b.key < k))
      if pos > 0 then some (pos - 1) else none
  found.map (fun i => ((items.getD i default).position, (items.getD i default).length))

/- ------------------------------------------------------------------ -/
/- SSTable point lookup (src/sstable/table.rs, Table::get)             -/
/- ------------------------------------------------------------------ -/

/-- Embeds Table::get (src/sstable/table.rs, lines 98-111) for a table
whose file holds the serialized pairs: consult the sparse index (a miss
returns none), read the returned (position, length) extent of the file,
deserialize the block (none models the panic of the unwrap on a malformed
block, which never returns a record), and linearly search it for a pair
whose key equals the probe exactly. -/
def Table.get (pairs : List InternalPair) (stride : Nat) (k : Key) : Option InternalPair :=
  match Index.get (Index.new pairs stride) k with
  | none => none
  | some (pos, len) =>
    match InternalPair.deserialize_from_bytes
        (((InternalPair.serialize_flatten pairs).drop pos).take len) with
    | none => none
    | some block_pairs => block_pairs.find? (fun p => decide (p.key = k))

/- ------------------------------------------------------------------ -/
/- SSTable manager read path (src/sstable/manager.rs)                  -/
/- ------------------------------------------------------------------ -/

/-- Embeds SSTableManager::get (src/sstable/manager.rs, lines 126-134): a
manager owning the given tables (each modelled by its sorted record list,
oldest table first, as the tables vector stores them) probes the tables
from newest (vector back) to oldest and returns the first hit, live or
tombstone. -/
def SSTableManager.get (tables : List (List InternalPair)) (stride : Nat) (k : Key) :
    Option InternalPair :=
  tables.reverse.findSome? (fun t => Table.get t stride k)

/-- Embeds the Get arm of SSTableManager::listen (src/sstable/manager.rs,
lines 89-99): the reply sent back is get(key).map(pair.value).flatten(). -/
def SSTableManager.listen_get_reply (tables : List (List InternalPair)) (stride : Nat)
    (k : Key) : Option Value :=
  ((SSTableManager.get tables stride k).map InternalPair.value).join

/- ------------------------------------------------------------------ -/
/- Compaction merge (src/sstable/manager.rs, compact_inner)            -/
/- ------------------------------------------------------------------ -/

/-- Embeds Iterator::min_by_key on the candidate pairs, by its contract:
among the elements whose key is minimal, the first is returned (none on an
empty list). -/
def min_by_key (ps : List InternalPair) : Option InternalPair :=
  ps.find? (fun p => decide (∀ q ∈ ps, p.key ≤ q.key))

/-- Embeds the advancing of a single iterator in step 4 of the merge loop
of compact_inner: when the current candidate (the head) carries the
minimal key, the iterator moves past it to its next element. -/
def advanceOne (k : Key) (l : List InternalPair) : List InternalPair :=
  match l with
  | [] => []
  | p :: rest => if p.key = k then rest else p :: rest

/-- Embeds step 4 of the merge loop of compact_inner: every iterator whose
current candidate carries the minimal key is advanced past it.  A list
models one iterator, its head being the current merge candidate. -/
def advanceMerge (k : Key) (ls : List (List InternalPair)) : List (List InternalPair) :=
  ls.map (advanceOne k)

/-- Total number of records left in the iterators. -/
def totalLen (ls : List (List InternalPair)) : Nat :=
  (ls.map List.length).sum

/-- Embeds the merge loop of SSTableManager::compact_inner
(src/sstable/manager.rs, lines 207-232), with each iterator modelled as
the list of its remaining records (the head is the merge candidate the
source keeps in merge_candidates): pick the candidate with the minimal key
(the first — newest — iterator on ties), append it, advance every iterator
holding that key, and stop once every candidate is exhausted.  The
source's loop checks exhaustion after the append, so the empty case of
this function is only reached through recursion (the entry panic is
modelled in compact_inner below). -/
def mergeLoop (ls : List (List InternalPair)) : List InternalPair :=
  match h : min_by_key (ls.filterMap List.head?) with
  | none => []
  | some m => m :: mergeLoop (advanceMerge m.key ls)
termination_by totalLen ls
decreasing_by
  unfold min_by_key at h
  have hm : m ∈ ls.filterMap List.head? := List.mem_of_find?_eq_some h
  rw [List.mem_filterMap] at hm
  obtain ⟨l, hl, hhead⟩ := hm
  clear h
  have hone : ∀ a : List InternalPair, (advanceOne m.key a).length ≤ a.length := by
    intro a
    cases a with
    | nil => simp [advanceOne]
    | cons p rest =>
      unfold advanceOne
      dsimp only
      split
      · exact Nat.le_succ _
      · exact le_refl _
  have hle : ∀ xs : List (List InternalPair),
      totalLen (advanceMerge m.key xs) ≤ totalLen xs := by
    intro xs
    induction xs with
    | nil => simp [advanceMerge, totalLen]
    | cons a as ih =>
      simp only [advanceMerge, totalLen, List.map_cons, List.sum_cons] at ih ⊢
      exact Nat.add_le_add (hone a) ih
  obtain ⟨t, rfl⟩ : ∃ t, l = m :: t := by
    cases l with
    | nil => simp at hhead
    | cons p rest =>
      simp only [List.head?_cons, Option.some.injEq] at hhead
      exact ⟨rest, by rw [hhead]⟩
  induction ls with
  | nil => simp at hl
  | cons a as ih =>
    simp only [advanceMerge, totalLen, List.map_cons, List.sum_cons] at ih ⊢
    rcases List.mem_cons.mp hl with h1 | h2
    · rw [← h1]
      have h3 : advanceOne m.key (m :: t) = t := by simp [advanceOne]
      rw [h3]
      have h4 := hle as
      simp only [advanceMerge, totalLen] at h4
      simp only [List.length_cons]
      omega
    · have h5 := hone a
      have h6 := ih h2
      omega

/-- Embeds SSTableManager::compact_inner (src/sstable/manager.rs, lines
199-234).  The iterators arrive newest first (compact feeds the tables
vector reversed).  When every iterator is empty at entry the source
panics on unwrap inside the first loop iteration; that divergence is
modelled as none. -/
def SSTableManager.compact_inner (ls : List (List InternalPair)) : Option (List InternalPair) :=
  if ls.filterMap List.head? = [] then none
  else some (mergeLoop ls)

/-- Embeds the iterator collection of SSTableManager::compact
(src/sstable/manager.rs, lines 146-152): the manager's tables (oldest
first) are fed to compact_inner newest first. -/
def SSTableManager.compact_pairs (tables : List (List InternalPair)) :
    Option (List InternalPair) :=
  SSTableManager.compact_inner tables.reverse

/- ------------------------------------------------------------------ -/
/- Specification-side definitions (for refinement statements)          -/
/- ------------------------------------------------------------------ -/

/-- Modelled from the spec's newest-wins read rule, for comparison with
the implementation: scanning the sequences newest first, the record for k
in the first sequence that contains k, none if no sequence does. -/
def firstContaining (ls : List (List InternalPair)) (k : Key) : Option InternalPair :=
  ls.findSome? (fun t => t.find? (fun p => decide (p.key = k)))

/-- Records sorted strictly by key (sorted and unique-by-key, the invariant
of SSTable contents). -/
def StrictSortedByKey (ps : List InternalPair) : Prop :=
  ps.Pairwise (fun p q => p.key < q.key)

/-- Well-formedness of a record for codec round-trips: the lengths fit in
a u64 (automatic for any Rust vector) and a live value is non-empty (the
write path never produces empty live values; the codec conflates them with
tombstones). -/
def WFPair (p : InternalPair) : Prop :=
  p.key.length < 256 ^ 8 ∧ ∀ v, p.value = some v → v.length < 256 ^ 8 ∧ v ≠ []

/-- Whether the first operation of the run that touches key k is a put. -/
def firstOpPut (ops : List MemOp) (k : Key) : Bool :=
  match ops.find? (fun o => decide (o.key = k)) with
  | some (.put _ _) => true
  | _ => false

/-- Semantic description of the MemTable counter after a flush-free run of
ops: each live entry contributes its value length, and each entry (live or
tombstone) whose key was first touched by a put contributes its key
length. -/
def invSize (ops : List MemOp) (m : MemMap) : Nat :=
  (m.map (fun e =>
    (match e.2 with | some v => v.length | none => 0) +
    (if firstOpPut ops e.1 then e.1.length else 0))).sum

/- ================================================================== -/
/- Theorems                                                            -/
/- ================================================================== -/

/- Codec lemmas -/

theorem toLEBytes_length (k n : Nat) : (toLEBytes k n).length = k := by
  induction k generalizing n with
  | zero => simp [toLEBytes]
  | succ k ih => simp [toLEBytes, ih]

theorem fromLEBytes_toLEBytes (k n : Nat) (h : n < 256 ^ k) :
    fromLEBytes (toLEBytes k n) = n := by
  induction k generalizing n with
  | zero =>
    simp only [pow_zero, Nat.lt_one_iff] at h
    simp [toLEBytes, fromLEBytes, h]
  | succ k ih =>
    have hdiv : n / 256 < 256 ^ k := by
      apply Nat.div_lt_of_lt_mul
      rw [pow_succ] at h
      omega
    simp only [toLEBytes, fromLEBytes, ih (n / 256) hdiv]
    omega

theorem serialize_length_ge (p : InternalPair) : 16 ≤ p.serialize.length := by
  simp only [InternalPair.serialize, List.length_append, toLEBytes_length]
  omega

/-- Core slicing fact: one record-shaped prefix (length fields, key bytes,
value bytes) followed by anything deserializes to that record shape and
the remainder. -/
theorem deserialize_one_concat (key vb rest : List Nat) (vlen : Nat)
    (hk : key.length < 256 ^ 8) (hvb : vb.length = vlen) (hvlt : vlen < 256 ^ 8) :
    InternalPair.deserialize_one
        (toLEBytes 8 key.length ++ (toLEBytes 8 vlen ++ (key ++ (vb ++ rest)))) =
      some (⟨key, if 0 < vlen then some vb else none⟩, rest) := by
  have hlen8 := toLEBytes_length 8 key.length
  have hlenv := toLEBytes_length 8 vlen
  have htake8 := List.take_left (toLEBytes 8 key.length) (toLEBytes 8 vlen ++ (key ++ (vb ++ rest)))
  rw [hlen8] at htake8
  have hdrop8 := List.drop_left (toLEBytes 8 key.length) (toLEBytes 8 vlen ++ (key ++ (vb ++ rest)))
  rw [hlen8] at hdrop8
  have htakev := List.take_left (toLEBytes 8 vlen) (key ++ (vb ++ rest))
  rw [hlenv] at htakev
  have hdropv := List.drop_left (toLEBytes 8 vlen) (key ++ (vb ++ rest))
  rw [hlenv] at hdropv
  have hdrop16 : List.drop 16
      (toLEBytes 8 key.length ++ (toLEBytes 8 vlen ++ (key ++ (vb ++ rest)))) =
      key ++ (vb ++ rest) := by
    rw [show (16 : Nat) = 8 + 8 by norm_num, ← List.drop_drop, hdrop8, hdropv]
  have hktake := List.take_left key (vb ++ rest)
  have hkdrop := List.drop_left key (vb ++ rest)
  have hvtake := List.take_left vb rest
  rw [hvb] at hvtake
  have hvdrop : List.drop (key.length + vlen) (key ++ (vb ++ rest)) = rest := by
    rw [← List.append_assoc]
    have h2 := List.drop_left (key ++ vb) rest
    rw [List.length_append, hvb] at h2
    exact h2
  have hlentot : (toLEBytes 8 key.length ++ (toLEBytes 8 vlen ++ (key ++ (vb ++ rest)))).length =
      16 + (key.length + (vb.length + rest.length)) := by
    simp only [List.length_append, hlen8, hlenv]
    omega
  unfold InternalPair.deserialize_one
  simp only [hlentot]
  rw [if_neg (by omega)]
  simp only [htake8, hdrop8, htakev, hdrop16]
  rw [fromLEBytes_toLEBytes 8 key.length hk, fromLEBytes_toLEBytes 8 vlen hvlt]
  have hclen : (key ++ (vb ++ rest)).length = key.length + (vb.length + rest.length) := by
    simp only [List.length_append]
  simp only [hclen]
  rw [if_neg (by omega)]
  simp only [hktake, hkdrop, hvtake, hvdrop]

/-- Deserializing one record off a stream that starts with a well-formed
serialized record recovers the record and leaves the rest untouched. -/
theorem deserialize_one_append (p : InternalPair) (rest : List Nat) (hwf : WFPair p) :
    InternalPair.deserialize_one (p.serialize ++ rest) = some (p, rest) := by
  obtain ⟨hk, hv⟩ := hwf
  obtain ⟨key, value⟩ := p
  simp only at hk
  cases value with
  | none =>
    have h := deserialize_one_concat key [] rest 0 hk rfl (by norm_num)
    simpa [InternalPair.serialize] using h
  | some v =>
    have hvv := hv v rfl
    have h := deserialize_one_concat key v rest v.length hk rfl hvv.1
    have hpos : 0 < v.length := List.length_pos.mpr hvv.2
    simpa [InternalPair.serialize, hpos] using h

/-- Decoding the concatenation of the encodings of a list of well-formed
records yields exactly that list. -/
theorem deserialize_from_bytes_flatten (L : List InternalPair)
    (h : ∀ p ∈ L, WFPair p) :
    InternalPair.deserialize_from_bytes (InternalPair.serialize_flatten L) = some L := by
  induction L with
  | nil =>
    unfold InternalPair.deserialize_from_bytes
    simp [InternalPair.serialize_flatten]
  | cons p ps ih =>
    have hp : WFPair p := h p (List.mem_cons_self p ps)
    have hflat : InternalPair.serialize_flatten (p :: ps) =
        p.serialize ++ InternalPair.serialize_flatten ps := by
      simp [InternalPair.serialize_flatten]
    have hne : p.serialize ++ InternalPair.serialize_flatten ps ≠ [] := by
      intro hcontra
      have := serialize_length_ge p
      have : (p.serialize ++ InternalPair.serialize_flatten ps).length = 0 := by
        rw [hcontra]; rfl
      simp only [List.length_append] at this
      omega
    rw [hflat]
    unfold InternalPair.deserialize_from_bytes
    rw [dif_neg hne]
    have hd := deserialize_one_append p (InternalPair.serialize_flatten ps) hp
    split
    · next heq =>
      rw [hd] at heq
      exact absurd heq (by simp)
    · next p1 rest heq =>
      rw [hd] at heq
      simp only [Option.some.injEq, Prod.mk.injEq] at heq
      obtain ⟨rfl, rfl⟩ := heq
      rw [ih (fun q hq => h q (List.mem_cons_of_mem p hq))]

/-- Claim C6, counterexample: the claim quantifies over every record
including those with an empty live value, but the codec writes a live
empty value exactly like a tombstone (value length 0, no bytes), so
deserializing the serialization of (key 97, live empty value) returns the
tombstone record instead of the original. -/
theorem claim_C6_counterexample :
    InternalPair.deserialize_one (InternalPair.serialize ⟨[97], some []⟩) =
      some (⟨[97], none⟩, []) ∧ (⟨[97], none⟩ : InternalPair) ≠ ⟨[97], some []⟩ := by
  constructor
  · decide
  · decide

/-- Claim C6 as amended: for every record whose live value (if any) is
non-empty (and whose lengths fit a u64, automatic in Rust), deserializing
the serialized bytes yields the record back and leaves trailing bytes
untouched; and decoding the unframed concatenation of the encodings of any
list of such records yields exactly that list. -/
theorem claim_C6_theorem :
    (∀ (p : InternalPair) (rest : List Nat), WFPair p →
      InternalPair.deserialize_one (p.serialize ++ rest) = some (p, rest)) ∧
    (∀ L : List InternalPair, (∀ p ∈ L, WFPair p) →
      InternalPair.deserialize_from_bytes (InternalPair.serialize_flatten L) = some L) :=
  ⟨deserialize_one_append, deserialize_from_bytes_flatten⟩

/-- Claim C6 witness: the amended round-trip at concrete records. -/
theorem claim_C6_witness :
    InternalPair.deserialize_one
        (InternalPair.serialize ⟨[97], some [98, 99]⟩ ++ []) =
      some (⟨[97], some [98, 99]⟩, []) ∧
    InternalPair.deserialize_from_bytes
        (InternalPair.serialize_flatten [⟨[97], some [98]⟩, ⟨[100], none⟩]) =
      some [⟨[97], some [98]⟩, ⟨[100], none⟩] := by
  constructor
  · exact claim_C6_theorem.1 ⟨[97], some [98, 99]⟩ []
      ⟨by norm_num, fun v hv => by injection hv with h; subst h; exact ⟨by norm_num, by simp⟩⟩
  · refine claim_C6_theorem.2 _ ?_
    intro p hp
    simp only [List.mem_cons, List.not_mem_nil, or_false] at hp
    rcases hp with rfl | rfl
    · exact ⟨by norm_num, fun v hv => by injection hv with h; subst h; exact ⟨by norm_num, by simp⟩⟩
    · exact ⟨by norm_num, fun v hv => by injection hv⟩

/-- Claim C7, counterexample: the claim asserts that with trigger ratio
0.5 the size list [4, 1, 1] (oldest first) triggers compaction, but the
source compares newer-sum / oldest = 2 / 4 = 0.5 strictly against 0.5,
which fails, so compaction is skipped. -/
theorem claim_C7_counterexample :
    should_compact [4, 1, 1] (1 / 2 : ℚ) = none := by
  simp only [should_compact, List.sum_cons, List.sum_nil]
  norm_num [ratioExceeds]

/-- Claim C7 as amended: compaction fires iff newer-sum / oldest strictly
exceeds the trigger ratio (the f64 quotient being modelled exactly); with
zero or one tables it never fires; with ratio 0.5 neither [6, 1] nor
[4, 1, 1] triggers (2 / 4 = 0.5 is not greater than 0.5), and [4, 1, 1]
triggers at the repository test's ratio 0.25 with compacted output size
6. -/
theorem claim_C7_theorem :
    (∀ ratio : ℚ, should_compact [] ratio = none) ∧
    (∀ (s : Nat) (ratio : ℚ), 0 ≤ ratio → should_compact [s] ratio = none) ∧
    (∀ (oldest : Nat) (rest : List Nat) (ratio : ℚ), 0 < oldest →
      (should_compact (oldest :: rest) ratio = some (oldest + rest.sum) ↔
        (rest.sum : ℚ) / (oldest : ℚ) > ratio)) ∧
    should_compact [6, 1] (1 / 2 : ℚ) = none ∧
    should_compact [4, 1, 1] (1 / 2 : ℚ) = none ∧
    should_compact [4, 1, 1] (1 / 4 : ℚ) = some 6 := by
  refine ⟨?_, ?_, ?_, ?_, ?_, ?_⟩
  · intro ratio
    simp [should_compact]
  · intro s ratio hr
    have hfalse : ratioExceeds 0 s ratio = false := by
      unfold ratioExceeds
      by_cases hs : s = 0
      · simp [hs]
      · simp only [hs, if_false, decide_eq_false_iff_not, gt_iff_lt, not_lt, Nat.cast_zero,
          zero_div]
        exact hr
    simp [should_compact, hfalse]
  · intro oldest rest ratio hold
    have hval : ratioExceeds rest.sum oldest ratio =
        decide ((rest.sum : ℚ) / (oldest : ℚ) > ratio) := by
      unfold ratioExceeds
      rw [if_neg hold.ne']
    have heq : should_compact (oldest :: rest) ratio =
        if ratioExceeds ((oldest :: rest).sum - oldest) oldest ratio
          then some ((oldest :: rest).sum) else none := by
      simp [should_compact]
    rw [heq]
    have hsub : (oldest :: rest).sum - oldest = rest.sum := by
      simp only [List.sum_cons]
      omega
    rw [hsub, hval]
    by_cases hgt : ((rest.sum : ℚ) / (oldest : ℚ) > ratio)
    · rw [if_pos (decide_eq_true hgt)]
      constructor
      · intro _
        exact hgt
      · intro _
        simp
    · rw [if_neg (by simpa using hgt)]
      constructor
      · intro hcontra
        simp at hcontra
      · intro hcontra
        exact absurd hcontra hgt
  · simp only [should_compact, List.sum_cons, List.sum_nil]
    norm_num [ratioExceeds]
  · simp only [should_compact, List.sum_cons, List.sum_nil]
    norm_num [ratioExceeds]
  · simp only [should_compact, List.sum_cons, List.sum_nil]
    norm_num [ratioExceeds]

/-- Claim C7 witness: a single table never triggers compaction. -/
theorem claim_C7_witness : should_compact [1] (1 / 2 : ℚ) = none :=
  claim_C7_theorem.2.1 1 (1 / 2) (by norm_num)

/- MemTable map lemmas -/

theorem MemMap.get_cons (e : Key × Option Value) (rest : MemMap) (k : Key) :
    MemMap.get (e :: rest) k = if e.1 = k then some e.2 else MemMap.get rest k := by
  unfold MemMap.get
  by_cases he : e.1 = k
  · rw [List.find?_cons_of_pos _ (by simpa using he), if_pos he]
    simp
  · rw [List.find?_cons_of_neg _ (by simpa using he), if_neg he]

theorem MemMap.insert_cons (e : Key × Option Value) (rest : MemMap) (k : Key)
    (v : Option Value) :
    MemMap.insert (e :: rest) k v =
      if e.1 = k then (k, v) :: rest else e :: MemMap.insert rest k v := by
  rfl

theorem MemMap.sum_insert_absent (f : Key × Option Value → Nat) (m : MemMap) (k : Key)
    (v : Option Value) (h : MemMap.get m k = none) :
    ((MemMap.insert m k v).map f).sum = (m.map f).sum + f (k, v) := by
  induction m with
  | nil => simp [MemMap.insert]
  | cons e rest ih =>
    rw [MemMap.get_cons] at h
    by_cases he : e.1 = k
    · rw [if_pos he] at h
      exact absurd h (by simp)
    · rw [if_neg he] at h
      rw [MemMap.insert_cons, if_neg he]
      simp only [List.map_cons, List.sum_cons, ih h]
      omega

theorem MemMap.sum_insert_present (f : Key × Option Value → Nat) (m : MemMap) (k : Key)
    (v w : Option Value) (h : MemMap.get m k = some w) :
    ((MemMap.insert m k v).map f).sum + f (k, w) = (m.map f).sum + f (k, v) := by
  induction m with
  | nil => simp [MemMap.get] at h
  | cons e rest ih =>
    rw [MemMap.get_cons] at h
    by_cases he : e.1 = k
    · rw [if_pos he] at h
      simp only [Option.some.injEq] at h
      subst h
      rw [MemMap.insert_cons, if_pos he]
      have he2 : e = (k, e.2) := by
        rw [← he]
      simp only [List.map_cons, List.sum_cons]
      conv_rhs => rw [he2]
      omega
    · rw [if_neg he] at h
      rw [MemMap.insert_cons, if_neg he]
      simp only [List.map_cons, List.sum_cons]
      have := ih h
      omega

theorem MemMap.get_some_mem (m : MemMap) (k : Key) (w : Option Value)
    (h : MemMap.get m k = some w) : (k, w) ∈ m := by
  induction m with
  | nil => simp [MemMap.get] at h
  | cons e rest ih =>
    rw [MemMap.get_cons] at h
    by_cases he : e.1 = k
    · rw [if_pos he] at h
      simp only [Option.some.injEq] at h
      subst h
      have h2 : (k, e.2) = e := by
        obtain ⟨a, b⟩ := e
        simp only at he ⊢
        rw [he]
      rw [h2]
      exact List.mem_cons_self e rest
    · rw [if_neg he] at h
      exact List.mem_cons_of_mem e (ih h)

theorem MemMap.get_none_iff (m : MemMap) (k : Key) :
    MemMap.get m k = none ↔ ∀ e ∈ m, e.1 ≠ k := by
  unfold MemMap.get
  simp [List.find?_eq_none]

theorem MemMap.insert_keys_iff (m : MemMap) (k : Key) (v : Option Value) (q : Key) :
    (∃ e ∈ MemMap.insert m k v, e.1 = q) ↔ (q = k ∨ ∃ e ∈ m, e.1 = q) := by
  induction m with
  | nil =>
    simp [MemMap.insert, eq_comm]
  | cons e rest ih =>
    rw [MemMap.insert_cons]
    by_cases he : e.1 = k
    · rw [if_pos he]
      constructor
      · rintro ⟨e2, he2, hq⟩
        rcases List.mem_cons.mp he2 with rfl | hmem
        · exact Or.inl hq.symm
        · exact Or.inr ⟨e2, List.mem_cons_of_mem e hmem, hq⟩
      · rintro (hqk | ⟨e2, he2, hq⟩)
        · exact ⟨(k, v), List.mem_cons_self _ _, hqk.symm⟩
        · rcases List.mem_cons.mp he2 with rfl | hmem
          · exact ⟨(k, v), List.mem_cons_self _ _, by rw [← hq, he]⟩
          · exact ⟨e2, List.mem_cons_of_mem _ hmem, hq⟩
    · rw [if_neg he]
      constructor
      · rintro ⟨e2, he2, hq⟩
        rcases List.mem_cons.mp he2 with rfl | hmem
        · exact Or.inr ⟨e2, List.mem_cons_self _ _, hq⟩
        · rcases ih.mp ⟨e2, hmem, hq⟩ with h1 | ⟨e3, he3, hq3⟩
          · exact Or.inl h1
          · exact Or.inr ⟨e3, List.mem_cons_of_mem _ he3, hq3⟩
      · rintro (hqk | ⟨e2, he2, hq⟩)
        · obtain ⟨e3, he3, hq3⟩ := ih.mpr (Or.inl hqk)
          exact ⟨e3, List.mem_cons_of_mem _ he3, hq3⟩
        · rcases List.mem_cons.mp he2 with rfl | hmem
          · exact ⟨e2, List.mem_cons_self _ _, hq⟩
          · obtain ⟨e3, he3, hq3⟩ := ih.mpr (Or.inr ⟨e2, hmem, hq⟩)
            exact ⟨e3, List.mem_cons_of_mem _ he3, hq3⟩

/- History lemmas for the accounting invariant -/

theorem firstOpPut_append_left (ops l2 : List MemOp) (k : Key)
    (h : ∃ o ∈ ops, o.key = k) : firstOpPut (ops ++ l2) k = firstOpPut ops k := by
  unfold firstOpPut
  rw [List.find?_append]
  obtain ⟨o, ho, hk⟩ := h
  have hsome : (ops.find? (fun o => decide (o.key = k))).isSome := by
    rw [List.find?_isSome]
    exact ⟨o, ho, by simpa using hk⟩
  cases hf : ops.find? (fun o => decide (o.key = k)) with
  | none => rw [hf] at hsome; simp at hsome
  | some o2 => simp [Option.or]

theorem firstOpPut_append_right (ops l2 : List MemOp) (k : Key)
    (h : ∀ o ∈ ops, o.key ≠ k) : firstOpPut (ops ++ l2) k = firstOpPut l2 k := by
  unfold firstOpPut
  rw [List.find?_append]
  have hnone : ops.find? (fun o => decide (o.key = k)) = none := by
    rw [List.find?_eq_none]
    intro o ho
    simpa using h o ho
  rw [hnone]
  simp [Option.or]

theorem invSize_append_of_touched (ops : List MemOp) (l2 : List MemOp) (m : MemMap)
    (h : ∀ e ∈ m, ∃ o ∈ ops, o.key = e.1) :
    invSize (ops ++ l2) m = invSize ops m := by
  unfold invSize
  apply congrArg List.sum
  apply List.map_congr_left
  intro e he
  rw [firstOpPut_append_left ops l2 e.1 (h e he)]

/-- The counter value computed by put is exactly the semantic invariant of
the extended history on the updated map. -/
theorem put_size_invSize (ops : List MemOp) (s : MemTable) (k : Key) (v : Value)
    (hsize : s.actual_size = invSize ops s.map)
    (hdom : ∀ q : Key, (∃ e ∈ s.map, e.1 = q) ↔ (∃ o ∈ ops, o.key = q)) :
    s.put_size k v = invSize (ops ++ [MemOp.put k v]) (MemMap.insert s.map k (some v)) := by
  unfold MemTable.put_size
  have htouch : ∀ e ∈ s.map, ∃ o ∈ ops, o.key = e.1 := by
    intro e he
    exact (hdom e.1).mp ⟨e, he, rfl⟩
  cases hprev : MemMap.get s.map k with
  | none =>
    have huntouched : ∀ o ∈ ops, o.key ≠ k := by
      intro o ho hk
      obtain ⟨e, he, hek⟩ := (hdom k).mpr ⟨o, ho, hk⟩
      exact ((MemMap.get_none_iff s.map k).mp hprev) e he hek
    have hfp : firstOpPut (ops ++ [MemOp.put k v]) k = true := by
      rw [firstOpPut_append_right ops [MemOp.put k v] k huntouched]
      simp [firstOpPut, MemOp.key, List.find?]
    unfold invSize
    rw [MemMap.sum_insert_absent _ s.map k (some v) hprev]
    have hrest : ((s.map.map (fun e =>
        (match e.2 with | some v => v.length | none => 0) +
        (if firstOpPut (ops ++ [MemOp.put k v]) e.1 then e.1.length else 0)))).sum =
        invSize ops s.map := by
      have := invSize_append_of_touched ops [MemOp.put k v] s.map htouch
      unfold invSize at this
      exact this
    rw [hrest, hfp]
    simp only [if_true, hsize]
    omega
  | some w =>
    have hmem : (k, w) ∈ s.map := MemMap.get_some_mem s.map k w hprev
    have hkeyfix : firstOpPut (ops ++ [MemOp.put k v]) k = firstOpPut ops k :=
      firstOpPut_append_left ops [MemOp.put k v] k ((hdom k).mp ⟨(k, w), hmem, rfl⟩)
    have hpres := MemMap.sum_insert_present (fun e =>
        (match e.2 with | some v => v.length | none => 0) +
        (if firstOpPut (ops ++ [MemOp.put k v]) e.1 then e.1.length else 0))
      s.map k (some v) w hprev
    have hrest : ((s.map.map (fun e =>
        (match e.2 with | some v => v.length | none => 0) +
        (if firstOpPut (ops ++ [MemOp.put k v]) e.1 then e.1.length else 0)))).sum =
        invSize ops s.map := by
      have := invSize_append_of_touched ops [MemOp.put k v] s.map htouch
      unfold invSize at this
      exact this
    unfold invSize at hpres ⊢
    rw [hrest] at hpres
    cases w with
    | none =>
      dsimp only at hpres ⊢
      rw [hsize]
      omega
    | some old =>
      dsimp only at hpres ⊢
      rw [hsize]
      omega

/-- The counter value computed by delete is exactly the semantic invariant
of the extended history on the updated map. -/
theorem delete_size_invSize (ops : List MemOp) (s : MemTable) (k : Key)
    (hsize : s.actual_size = invSize ops s.map)
    (hdom : ∀ q : Key, (∃ e ∈ s.map, e.1 = q) ↔ (∃ o ∈ ops, o.key = q)) :
    (s.delete k).state.actual_size =
      invSize (ops ++ [MemOp.del k]) (MemMap.insert s.map k none) := by
  unfold MemTable.delete
  have htouch : ∀ e ∈ s.map, ∃ o ∈ ops, o.key = e.1 := by
    intro e he
    exact (hdom e.1).mp ⟨e, he, rfl⟩
  have hrest : ((s.map.map (fun e =>
      (match e.2 with | some v => v.length | none => 0) +
      (if firstOpPut (ops ++ [MemOp.del k]) e.1 then e.1.length else 0)))).sum =
      invSize ops s.map := by
    have := invSize_append_of_touched ops [MemOp.del k] s.map htouch
    unfold invSize at this
    exact this
  cases hprev : MemMap.get s.map k with
  | none =>
    have huntouched : ∀ o ∈ ops, o.key ≠ k := by
      intro o ho hk
      obtain ⟨e, he, hek⟩ := (hdom k).mpr ⟨o, ho, hk⟩
      exact ((MemMap.get_none_iff s.map k).mp hprev) e he hek
    have hfp : firstOpPut (ops ++ [MemOp.del k]) k = false := by
      rw [firstOpPut_append_right ops [MemOp.del k] k huntouched]
      simp [firstOpPut, MemOp.key, List.find?]
    unfold invSize
    rw [MemMap.sum_insert_absent _ s.map k none hprev]
    rw [hrest, hfp]
    simp only [hprev, Option.join]
    rw [hsize]
    simp
  | some w =>
    have hmem : (k, w) ∈ s.map := MemMap.get_some_mem s.map k w hprev
    have hpres := MemMap.sum_insert_present (fun e =>
        (match e.2 with | some v => v.length | none => 0) +
        (if firstOpPut (ops ++ [MemOp.del k]) e.1 then e.1.length else 0))
      s.map k none w hprev
    unfold invSize at hpres ⊢
    rw [hrest] at hpres
    cases w with
    | none =>
      simp only [hprev, show (some (none : Option Value)).join = none from rfl] at hpres ⊢
      rw [hsize]
      omega
    | some old =>
      simp only [hprev, show (some (some old)).join = some old from rfl] at hpres ⊢
      rw [hsize]
      omega

theorem MemTable.run_append_single (s : MemTable) (ops : List MemOp) (op : MemOp) :
    MemTable.run s (ops ++ [op]) =
      (((MemTable.run s ops).1.step op).state,
        (MemTable.run s ops).2 || ((MemTable.run s ops).1.step op).flushed) := by
  unfold MemTable.run
  rw [List.foldl_append]
  simp

/-- After a flush-free run from the empty MemTable, the counter equals the
semantic invariant of the history, the size limit is unchanged, and the
map's keys are exactly the touched keys. -/
theorem MemTable.run_invariant (limit : Nat) (ops : List MemOp)
    (h : (MemTable.run (MemTable.new limit) ops).2 = false) :
    ((MemTable.run (MemTable.new limit) ops).1.actual_size =
      invSize ops (MemTable.run (MemTable.new limit) ops).1.map) ∧
    ((MemTable.run (MemTable.new limit) ops).1.size_limit = limit) ∧
    (∀ q : Key, (∃ e ∈ (MemTable.run (MemTable.new limit) ops).1.map, e.1 = q) ↔
      (∃ o ∈ ops, o.key = q)) := by
  induction ops using List.reverseRecOn with
  | nil =>
    refine ⟨by simp [MemTable.run, MemTable.new, invSize], rfl, ?_⟩
    intro q
    simp [MemTable.run, MemTable.new]
  | append_singleton ops op ih =>
    rw [MemTable.run_append_single] at h ⊢
    simp only [Bool.or_eq_false_iff] at h
    obtain ⟨h1, h2⟩ := h
    obtain ⟨ihsize, ihlim, ihdom⟩ := ih h1
    cases op with
    | put k v =>
      unfold MemTable.step MemTable.put at h2 ⊢
      dsimp only at h2 ⊢
      by_cases hc : (MemTable.run (MemTable.new limit) ops).1.put_size k v >
          (MemTable.run (MemTable.new limit) ops).1.size_limit
      · rw [if_pos hc] at h2
        exact absurd h2 (by simp)
      · rw [if_neg hc] at h2 ⊢
        refine ⟨?_, ihlim, ?_⟩
        · exact put_size_invSize ops (MemTable.run (MemTable.new limit) ops).1 k v ihsize ihdom
        · intro q
          dsimp only
          rw [MemMap.insert_keys_iff]
          simp only [List.mem_append, List.mem_singleton]
          constructor
          · rintro (rfl | hex)
            · exact ⟨MemOp.put q v, Or.inr rfl, rfl⟩
            · obtain ⟨o, ho, hk⟩ := (ihdom q).mp hex
              exact ⟨o, Or.inl ho, hk⟩
          · rintro ⟨o, ho | rfl, hk⟩
            · exact Or.inr ((ihdom q).mpr ⟨o, ho, hk⟩)
            · left
              simp only [MemOp.key] at hk
              exact hk.symm
    | del k =>
      unfold MemTable.step at h2 ⊢
      dsimp only at h2 ⊢
      refine ⟨?_, ?_, ?_⟩
      · exact delete_size_invSize ops (MemTable.run (MemTable.new limit) ops).1 k ihsize ihdom
      · unfold MemTable.delete
        exact ihlim
      · intro q
        unfold MemTable.delete
        dsimp only
        rw [MemMap.insert_keys_iff]
        simp only [List.mem_append, List.mem_singleton]
        constructor
        · rintro (rfl | hex)
          · exact ⟨MemOp.del q, Or.inr rfl, rfl⟩
          · obtain ⟨o, ho, hk⟩ := (ihdom q).mp hex
            exact ⟨o, Or.inl ho, hk⟩
        · rintro ⟨o, ho | rfl, hk⟩
          · exact Or.inr ((ihdom q).mpr ⟨o, ho, hk⟩)
          · left
            simp only [MemOp.key] at hk
            exact hk.symm

theorem MemMap.get_insert_self (m : MemMap) (k : Key) (v : Option Value) :
    MemMap.get (MemMap.insert m k v) k = some v := by
  induction m with
  | nil => simp [MemMap.insert, MemMap.get, List.find?]
  | cons e rest ih =>
    rw [MemMap.insert_cons]
    by_cases he : e.1 = k
    · rw [if_pos he, MemMap.get_cons]
      simp
    · rw [if_neg he, MemMap.get_cons, if_neg he]
      exact ih

/-- Claim C3, counterexample: putting key 97 with a two-byte value and
then deleting it leaves the counter at 1 (delete subtracts only the value
length, the key length of the tombstoned entry stays counted), while the
sum over live entries is 0; so the counter does not equal the live-entry
sum and the tombstone does contribute. -/
theorem claim_C3_counterexample :
    (MemTable.run (MemTable.new 100) [MemOp.put [97] [98, 98], MemOp.del [97]]).2 = false ∧
    (MemTable.run (MemTable.new 100) [MemOp.put [97] [98, 98], MemOp.del [97]]).1.actual_size
      = 1 ∧
    MemMap.liveSize
      (MemTable.run (MemTable.new 100) [MemOp.put [97] [98, 98], MemOp.del [97]]).1.map = 0 := by
  decide

/-- Claim C3 as amended: after any flush-free sequence of puts and deletes
from the empty MemTable, the counter equals the sum over the map's entries
of the live value lengths, plus the key length of every entry (live or
tombstoned) whose key was first touched by a put; a tombstone therefore
keeps contributing its key length, and an entry resurrected from a
delete-created tombstone never contributes its key length. -/
theorem claim_C3_theorem (limit : Nat) (ops : List MemOp)
    (h : (MemTable.run (MemTable.new limit) ops).2 = false) :
    (MemTable.run (MemTable.new limit) ops).1.actual_size =
      invSize ops (MemTable.run (MemTable.new limit) ops).1.map :=
  (MemTable.run_invariant limit ops h).1

/-- Claim C3 witness: the amended accounting invariant at a concrete
flush-free run. -/
theorem claim_C3_witness :
    (MemTable.run (MemTable.new 100) [MemOp.put [97] [98], MemOp.del [97]]).1.actual_size =
      invSize [MemOp.put [97] [98], MemOp.del [97]]
        (MemTable.run (MemTable.new 100) [MemOp.put [97] [98], MemOp.del [97]]).1.map :=
  claim_C3_theorem 100 [MemOp.put [97] [98], MemOp.del [97]] (by decide)

/-- Claim C4, confirmed: on a reachable flush-free state, a put flushes
exactly when the counter after the accounting update (the semantic
invariant of the extended history) strictly exceeds size_limit; a flushing
put clears the map and resets the counter to 0; and delete never by itself
flushes. -/
theorem claim_C4_theorem (limit : Nat) (ops : List MemOp) (k : Key) (v : Value)
    (h : (MemTable.run (MemTable.new limit) ops).2 = false) :
    ((((MemTable.run (MemTable.new limit) ops).1.put k v).flushed = true) ↔
      invSize (ops ++ [MemOp.put k v])
        (MemMap.insert (MemTable.run (MemTable.new limit) ops).1.map k (some v)) > limit) ∧
    ((((MemTable.run (MemTable.new limit) ops).1.put k v).flushed = true) →
      ((MemTable.run (MemTable.new limit) ops).1.put k v).state.map = [] ∧
      ((MemTable.run (MemTable.new limit) ops).1.put k v).state.actual_size = 0) ∧
    (∀ q : Key, ((MemTable.run (MemTable.new limit) ops).1.delete q).flushed = false) := by
  obtain ⟨ihsize, ihlim, ihdom⟩ := MemTable.run_invariant limit ops h
  have hps := put_size_invSize ops (MemTable.run (MemTable.new limit) ops).1 k v ihsize ihdom
  refine ⟨?_, ?_, ?_⟩
  · constructor
    · intro hf
      unfold MemTable.put at hf
      dsimp only at hf
      by_cases hc : (MemTable.run (MemTable.new limit) ops).1.put_size k v >
          (MemTable.run (MemTable.new limit) ops).1.size_limit
      · have h2 : invSize (ops ++ [MemOp.put k v])
            (MemMap.insert (MemTable.run (MemTable.new limit) ops).1.map k (some v)) >
            (MemTable.run (MemTable.new limit) ops).1.size_limit := by
          rw [← hps]
          exact hc
        rw [ihlim] at h2
        exact h2
      · rw [if_neg hc] at hf
        exact absurd hf (by simp)
    · intro hinv
      unfold MemTable.put
      dsimp only
      rw [if_pos (by rw [hps, ihlim]; exact hinv)]
  · intro hf
    unfold MemTable.put at hf ⊢
    dsimp only at hf ⊢
    by_cases hc : (MemTable.run (MemTable.new limit) ops).1.put_size k v >
        (MemTable.run (MemTable.new limit) ops).1.size_limit
    · rw [if_pos hc]
      exact ⟨rfl, rfl⟩
    · rw [if_neg hc] at hf
      exact absurd hf (by simp)
  · intro q
    rfl

/-- Claim C4 witness: a delete on a concrete reachable state does not
flush. -/
theorem claim_C4_witness :
    ((MemTable.run (MemTable.new 1) []).1.delete [97]).flushed = false :=
  (claim_C4_theorem 1 [] [97] [98] (by decide)).2.2 [97]

/-- Claim C9, counterexample: after a delete on a missing key the map does
record a tombstone, but MemTable::get flattens it: the get returns none
exactly as it does on the untouched table, so a subsequent get observes
absence, not a tombstone. -/
theorem claim_C9_counterexample :
    MemMap.get ((MemTable.new 100).delete [97]).state.map [97] = some none ∧
    ((MemTable.new 100).delete [97]).state.get [97] = none ∧
    (MemTable.new 100).get [97] = none := by
  decide

/-- Claim C9 as amended: put returns exactly what get returned before it
(the previously stored live value; none on absence or tombstone), delete
does the same, and delete always records a tombstone entry for the key in
the map, also when the key had no entry; the tombstone however is not
observable through MemTable::get, which returns none for it. -/
theorem claim_C9_theorem (s : MemTable) (k : Key) (v : Value) :
    ((s.put k v).ret = s.get k) ∧
    ((s.delete k).ret = s.get k) ∧
    (MemMap.get (s.delete k).state.map k = some none) := by
  refine ⟨?_, rfl, ?_⟩
  · unfold MemTable.put MemTable.get
    dsimp only
    by_cases hc : s.put_size k v > s.size_limit
    · rw [if_pos hc]
    · rw [if_neg hc]
  · unfold MemTable.delete
    dsimp only
    exact MemMap.get_insert_self s.map k none

/- Sparse index lemmas -/

theorem idx_get_nil (k : Key) : Index.get [] k = none := by
  simp [Index.get]

theorem idx_none_of_lt (blocks : List Block) (k : Key)
    (h : ∀ b ∈ blocks, k < b.key) : Index.get blocks k = none := by
  unfold Index.get
  have hf : List.findIdx? (fun b : Block => decide (b.key = k)) blocks = none := by
    rw [List.findIdx?_eq_none_iff]
    intro b hb
    simp only [decide_eq_false_iff_not]
    exact fun hbk => absurd (hbk ▸ h b hb) (lt_irrefl k)
  have hc : blocks.countP (fun b : Block => decide (b.key < k)) = 0 := by
    rw [List.countP_eq_zero]
    intro b hb
    simp only [decide_eq_true_eq]
    exact not_lt_of_gt (h b hb)
  rw [hf, hc]
  simp

theorem idx_cons_eq (a : Block) (blocks : List Block) (k : Key) (h : a.key = k) :
    Index.get (a :: blocks) k = some (a.position, a.length) := by
  unfold Index.get
  rw [List.findIdx?_cons]
  rw [if_pos (by simpa using h)]
  simp

theorem idx_cons_lt (a : Block) (blocks : List Block) (k : Key) (h : a.key < k) :
    Index.get (a :: blocks) k =
      some ((Index.get blocks k).getD (a.position, a.length)) := by
  have hpa : (decide (a.key = k)) = false := by simp [ne_of_lt h]
  have hpl : (decide (a.key < k)) = true := by simpa using h
  unfold Index.get
  rw [List.findIdx?_cons, hpa]
  rw [if_neg Bool.false_ne_true]
  rw [List.findIdx?_succ, List.countP_cons, hpl, if_pos rfl]
  cases hf : List.findIdx? (fun b : Block => decide (b.key = k)) blocks with
  | some j =>
    simp [List.getD_cons_succ]
  | none =>
    cases hcp : blocks.countP (fun b : Block => decide (b.key < k)) with
    | zero => simp
    | succ m =>
      have h1 : m + 1 + 1 - 1 = m + 1 := by omega
      simp [h1, List.getD_cons_succ]

/- Chunk and block-construction lemmas -/

theorem serialize_flatten_append (l1 l2 : List InternalPair) :
    InternalPair.serialize_flatten (l1 ++ l2) =
      InternalPair.serialize_flatten l1 ++ InternalPair.serialize_flatten l2 := by
  simp [InternalPair.serialize_flatten]

theorem chunksOf_flatten (stride : Nat) (pairs : List InternalPair) :
    (chunksOf stride pairs).flatten = pairs := by
  induction pairs using chunksOf.induct stride with
  | case1 => simp [chunksOf]
  | case2 p rest ih =>
    rw [chunksOf]
    simp only [List.flatten_cons, ih]
    simp [List.take_append_drop]

theorem chunksOf_ne_nil (stride : Nat) (pairs : List InternalPair) :
    ∀ c ∈ chunksOf stride pairs, c ≠ [] := by
  induction pairs using chunksOf.induct stride with
  | case1 => simp [chunksOf]
  | case2 p rest ih =>
    rw [chunksOf]
    intro c hc
    rcases List.mem_cons.mp hc with rfl | hmem
    · simp
    · exact ih c hmem

theorem buildBlocks_cons (c : List InternalPair) (cs : List (List InternalPair)) (off : Nat) :
    buildBlocks (c :: cs) off =
      ⟨c.headI.key, off, (InternalPair.serialize_flatten c).length⟩ ::
        buildBlocks cs (off + (InternalPair.serialize_flatten c).length) := by
  rfl

theorem buildBlocks_mem_key (b : Block) (cs : List (List InternalPair)) (off : Nat)
    (h : b ∈ buildBlocks cs off) : ∃ c ∈ cs, b.key = c.headI.key := by
  induction cs generalizing off with
  | nil => simp [buildBlocks] at h
  | cons c cs ih =>
    rw [buildBlocks_cons] at h
    rcases List.mem_cons.mp h with rfl | hmem
    · exact ⟨c, List.mem_cons_self c cs, rfl⟩
    · obtain ⟨d, hd, hk⟩ := ih _ hmem
      exact ⟨d, List.mem_cons_of_mem c hd, hk⟩

/-- Workhorse for index correctness: looking up k in the index built over
chunks cs (at byte offset off inside a file whose bytes from off on are the
serialized chunks) either reports a miss because every record key exceeds
k, or returns the extent of the floor chunk: the chunk whose first key is
the last one not exceeding k; its slice decodes to exactly that chunk, its
block is in the index, and searching it for k is the same as searching the
whole record sequence. -/
theorem index_lookup_cases (cs : List (List InternalPair)) (off : Nat) (B : List Nat) (k : Key)
    (hB : B.drop off = InternalPair.serialize_flatten cs.flatten)
    (hne : ∀ c ∈ cs, c ≠ [])
    (hw : ∀ c ∈ cs, c.Pairwise (fun p q : InternalPair => p.key < q.key))
    (hb : cs.Pairwise (fun c d => ∀ x ∈ c, ∀ y ∈ d, x.key < y.key)) :
    (Index.get (buildBlocks cs off) k = none ∧ ∀ p ∈ cs.flatten, k < p.key) ∨
    (∃ pos len c cs1 cs2,
      Index.get (buildBlocks cs off) k = some (pos, len) ∧
      cs = cs1 ++ c :: cs2 ∧
      (⟨c.headI.key, pos, len⟩ : Block) ∈ buildBlocks cs off ∧
      c.headI.key ≤ k ∧
      (∀ d ∈ cs2, k < d.headI.key) ∧
      (B.drop pos).take len = InternalPair.serialize_flatten c ∧
      c.find? (fun p => decide (p.key = k)) =
        cs.flatten.find? (fun p => decide (p.key = k))) := by
  induction cs generalizing off with
  | nil =>
    left
    exact ⟨idx_get_nil k, by simp⟩
  | cons c cs ih =>
    obtain ⟨p0, crest, rfl⟩ : ∃ p0 crest, c = p0 :: crest := by
      cases c with
      | nil => exact absurd rfl (hne [] (List.mem_cons_self _ _))
      | cons p0 crest => exact ⟨p0, crest, rfl⟩
    have hcne : (p0 :: crest) ≠ [] := by simp
    have hBoff : B.drop off = InternalPair.serialize_flatten (p0 :: crest) ++
        InternalPair.serialize_flatten cs.flatten := by
      rw [hB, List.flatten_cons, serialize_flatten_append]
    have hB2 : B.drop (off + (InternalPair.serialize_flatten (p0 :: crest)).length) =
        InternalPair.serialize_flatten cs.flatten := by
      rw [← List.drop_drop, hBoff]
      exact List.drop_left _ _
    have hbc : ∀ d ∈ cs, ∀ x ∈ (p0 :: crest), ∀ y ∈ d, x.key < y.key := by
      intro d hd
      exact (List.pairwise_cons.mp hb).1 d hd
    have hwc : (p0 :: crest).Pairwise (fun p q : InternalPair => p.key < q.key) :=
      hw _ (List.mem_cons_self _ _)
    by_cases hk0 : k < p0.key
    · left
      constructor
      · apply idx_none_of_lt
        intro b hbm
        rw [buildBlocks_cons] at hbm
        rcases List.mem_cons.mp hbm with rfl | hbm2
        · simpa using hk0
        · obtain ⟨d, hd, hkey⟩ := buildBlocks_mem_key b cs _ hbm2
          obtain ⟨q0, drest, rfl⟩ : ∃ q0 drest, d = q0 :: drest := by
            cases d with
            | nil => exact absurd rfl (hne [] (List.mem_cons_of_mem _ hd))
            | cons q0 drest => exact ⟨q0, drest, rfl⟩
          have : p0.key < q0.key :=
            hbc _ hd p0 (List.mem_cons_self _ _) q0 (List.mem_cons_self _ _)
          rw [hkey]
          simp only [List.headI_cons]
          exact lt_trans hk0 this
      · intro p hp
        rw [List.flatten_cons, List.mem_append] at hp
        rcases hp with hp | hp
        · rcases List.mem_cons.mp hp with rfl | hp2
          · exact hk0
          · exact lt_trans hk0 ((List.pairwise_cons.mp hwc).1 p hp2)
        · rw [List.mem_flatten] at hp
          obtain ⟨d, hd, hpd⟩ := hp
          exact lt_trans hk0 (hbc d hd p0 (List.mem_cons_self _ _) p hpd)
    · push_neg at hk0
      rcases ih (off + (InternalPair.serialize_flatten (p0 :: crest)).length) hB2
          (fun d hd => hne d (List.mem_cons_of_mem _ hd))
          (fun d hd => hw d (List.mem_cons_of_mem _ hd))
          (List.pairwise_cons.mp hb).2 with ihl | ihr
      · obtain ⟨ihnone, ihgt⟩ := ihl
        right
        refine ⟨off, (InternalPair.serialize_flatten (p0 :: crest)).length,
          p0 :: crest, [], cs, ?_, by simp, ?_, by simpa using hk0, ?_, ?_, ?_⟩
        · rw [buildBlocks_cons]
          rcases lt_or_eq_of_le hk0 with hlt | heq
          · rw [idx_cons_lt _ _ _ hlt, ihnone]
            rfl
          · rw [idx_cons_eq _ _ _ (by simp [heq])]
        · rw [buildBlocks_cons]
          exact List.mem_cons_self _ _
        · intro d hd
          obtain ⟨q0, drest, rfl⟩ : ∃ q0 drest, d = q0 :: drest := by
            cases d with
            | nil => exact absurd rfl (hne [] (List.mem_cons_of_mem _ hd))
            | cons q0 drest => exact ⟨q0, drest, rfl⟩
          simp only [List.headI_cons]
          exact ihgt q0 (List.mem_flatten.mpr ⟨q0 :: drest, hd, List.mem_cons_self _ _⟩)
        · rw [hBoff]
          exact List.take_left _ _
        · rw [List.flatten_cons, List.find?_append]
          have : cs.flatten.find? (fun p => decide (p.key = k)) = none := by
            rw [List.find?_eq_none]
            intro p hp
            simp only [decide_eq_true_eq]
            exact fun hpk => absurd (hpk ▸ ihgt p hp) (lt_irrefl k)
          rw [this, Option.or_none]
      · obtain ⟨pos, len, c2, cs1, cs2, hlook, hdecomp, hbmem, hchead, hcs2, hslice, hfind⟩ := ihr
        have hc2cs : c2 ∈ cs := by
          rw [hdecomp]
          exact List.mem_append_right _ (List.mem_cons_self _ _)
        obtain ⟨q0, c2rest, rfl⟩ : ∃ q0 c2rest, c2 = q0 :: c2rest := by
          cases c2 with
          | nil => exact absurd rfl (hne [] (List.mem_cons_of_mem _ hc2cs))
          | cons q0 c2rest => exact ⟨q0, c2rest, rfl⟩
        have hlt0 : p0.key < k := by
          have h1 : p0.key < q0.key :=
            hbc _ hc2cs p0 (List.mem_cons_self _ _) q0 (List.mem_cons_self _ _)
          simp only [List.headI_cons] at hchead
          exact lt_of_lt_of_le h1 hchead
        have hcallless : ∀ p ∈ (p0 :: crest), p.key < k := by
          intro p hp
          have h1 : p.key < q0.key :=
            hbc _ hc2cs p hp q0 (List.mem_cons_self _ _)
          simp only [List.headI_cons] at hchead
          exact lt_of_lt_of_le h1 hchead
        right
        refine ⟨pos, len, q0 :: c2rest, (p0 :: crest) :: cs1, cs2, ?_,
          by rw [hdecomp]; rfl, ?_, hchead, hcs2, hslice, ?_⟩
        · rw [buildBlocks_cons, idx_cons_lt _ _ _ hlt0, hlook]
          rfl
        · rw [buildBlocks_cons]
          exact List.mem_cons_of_mem _ hbmem
        · rw [hfind, List.flatten_cons, List.find?_append]
          have : (p0 :: crest).find? (fun p => decide (p.key = k)) = none := by
            rw [List.find?_eq_none]
            intro p hp
            simp only [decide_eq_true_eq]
            exact fun hpk => absurd (hpk ▸ hcallless p hp) (lt_irrefl k)
          rw [this]
          rfl

theorem find?_of_mem_strictSorted (pairs : List InternalPair)
    (hsort : pairs.Pairwise (fun p q : InternalPair => p.key < q.key))
    (p : InternalPair) (hp : p ∈ pairs) :
    pairs.find? (fun q => decide (q.key = p.key)) = some p := by
  induction pairs with
  | nil => simp at hp
  | cons a rest ih =>
    rcases List.mem_cons.mp hp with rfl | hmem
    · rw [List.find?_cons_of_pos _ (by simp)]
    · have hlt : a.key < p.key := (List.pairwise_cons.mp hsort).1 p hmem
      rw [List.find?_cons_of_neg _ (by simp [ne_of_lt hlt])]
      exact ih (List.pairwise_cons.mp hsort).2 hmem

/-- Table::get on a sorted unique table is exactly the linear lookup by
key in the full record list. -/
theorem Table.get_eq_find (pairs : List InternalPair) (stride : Nat) (k : Key)
    (hsort : StrictSortedByKey pairs) (hwf : ∀ p ∈ pairs, WFPair p) :
    Table.get pairs stride k = pairs.find? (fun p => decide (p.key = k)) := by
  unfold StrictSortedByKey at hsort
  have hflat := chunksOf_flatten stride pairs
  have hpw : ((chunksOf stride pairs).flatten).Pairwise
      (fun p q : InternalPair => p.key < q.key) := by rw [hflat]; exact hsort
  rw [List.pairwise_flatten] at hpw
  obtain ⟨hw, hb⟩ := hpw
  have hB : (InternalPair.serialize_flatten pairs).drop 0 =
      InternalPair.serialize_flatten (chunksOf stride pairs).flatten := by
    rw [List.drop_zero, hflat]
  unfold Table.get Index.new
  rcases index_lookup_cases (chunksOf stride pairs) 0 (InternalPair.serialize_flatten pairs) k
      hB (chunksOf_ne_nil stride pairs) hw hb with ⟨hnone, hgt⟩ |
      ⟨pos, len, c, cs1, cs2, hlook, hdecomp, hbmem, hchead, hcs2, hslice, hfind⟩
  · rw [hnone]
    symm
    rw [List.find?_eq_none]
    intro p hp
    simp only [decide_eq_true_eq]
    have := hgt p (by rw [hflat]; exact hp)
    exact fun hpk => absurd (hpk ▸ this) (lt_irrefl k)
  · rw [hlook]
    dsimp only
    rw [hslice]
    have hccs : c ∈ chunksOf stride pairs := by
      rw [hdecomp]
      exact List.mem_append_right _ (List.mem_cons_self _ _)
    have hwfc : ∀ p ∈ c, WFPair p := by
      intro p hp
      apply hwf
      rw [← hflat]
      exact List.mem_flatten.mpr ⟨c, hccs, hp⟩
    rw [deserialize_from_bytes_flatten c hwfc]
    dsimp only
    rw [hfind, hflat]

/-- Claim C5, confirmed: for an index built by Index::new from a sorted
unique record sequence with block_stride at least 1, lookup misses exactly
when the key is strictly below the first key of block 0; otherwise it
returns the extent of the block whose first key is the greatest not
exceeding the key; and for every record p, looking up p's own key returns
the extent of precisely the block that stores p (its slice of the file is
that block's chunk, which contains p). -/
theorem claim_C5_theorem (pairs : List InternalPair) (stride : Nat) (k : Key)
    (hsort : StrictSortedByKey pairs) (_hstride : 1 ≤ stride) (hnil : pairs ≠ []) :
    (Index.get (Index.new pairs stride) k = none ↔ k < pairs.headI.key) ∧
    (∀ pos len, Index.get (Index.new pairs stride) k = some (pos, len) →
      ∃ b ∈ Index.new pairs stride, b.position = pos ∧ b.length = len ∧ b.key ≤ k ∧
        ∀ b2 ∈ Index.new pairs stride, b2.key ≤ k → b2.key ≤ b.key) ∧
    (∀ p ∈ pairs, ∃ pos len,
      Index.get (Index.new pairs stride) p.key = some (pos, len) ∧
      ∃ c, c ∈ chunksOf stride pairs ∧ p ∈ c ∧
        ((InternalPair.serialize_flatten pairs).drop pos).take len =
          InternalPair.serialize_flatten c) := by
  unfold StrictSortedByKey at hsort
  have hflat := chunksOf_flatten stride pairs
  have hpw : ((chunksOf stride pairs).flatten).Pairwise
      (fun p q : InternalPair => p.key < q.key) := by rw [hflat]; exact hsort
  rw [List.pairwise_flatten] at hpw
  obtain ⟨hw, hb⟩ := hpw
  have hne := chunksOf_ne_nil stride pairs
  have hB : (InternalPair.serialize_flatten pairs).drop 0 =
      InternalPair.serialize_flatten (chunksOf stride pairs).flatten := by
    rw [List.drop_zero, hflat]
  obtain ⟨p0, prest, rfl⟩ : ∃ p0 prest, pairs = p0 :: prest := by
    cases pairs with
    | nil => exact absurd rfl hnil
    | cons p0 prest => exact ⟨p0, prest, rfl⟩
  have hhead : ∀ p ∈ (p0 :: prest), p0.key ≤ p.key := by
    intro p hp
    rcases List.mem_cons.mp hp with rfl | hmem
    · exact le_refl _
    · exact le_of_lt ((List.pairwise_cons.mp hsort).1 p hmem)
  have hchunkkey : ∀ b ∈ Index.new (p0 :: prest) stride, ∃ p ∈ (p0 :: prest), b.key = p.key := by
    intro b hbm
    obtain ⟨d, hd, hk⟩ := buildBlocks_mem_key b _ 0 hbm
    obtain ⟨q0, drest, rfl⟩ : ∃ q0 drest, d = q0 :: drest := by
      cases d with
      | nil => exact absurd rfl (hne [] hd)
      | cons q0 drest => exact ⟨q0, drest, rfl⟩
    refine ⟨q0, ?_, by simpa using hk⟩
    rw [← hflat]
    exact List.mem_flatten.mpr ⟨q0 :: drest, hd, List.mem_cons_self _ _⟩
  refine ⟨⟨?_, ?_⟩, ?_, ?_⟩
  · -- none → k < first key
    intro hnone
    rcases index_lookup_cases (chunksOf stride (p0 :: prest)) 0
        (InternalPair.serialize_flatten (p0 :: prest)) k hB hne hw hb with ⟨_, hgt⟩ |
        ⟨pos, len, c, cs1, cs2, hlook, _, _, _, _, _, _⟩
    · have := hgt p0 (by rw [hflat]; exact List.mem_cons_self _ _)
      simpa using this
    · rw [Index.new] at hnone
      rw [hnone] at hlook
      exact absurd hlook (by simp)
  · -- k < first key → none
    intro hklt
    apply idx_none_of_lt
    intro b hbm
    obtain ⟨p, hp, hk⟩ := hchunkkey b hbm
    rw [hk]
    exact lt_of_lt_of_le (by simpa using hklt) (hhead p hp)
  · -- floor block
    intro pos len hlook0
    rcases index_lookup_cases (chunksOf stride (p0 :: prest)) 0
        (InternalPair.serialize_flatten (p0 :: prest)) k hB hne hw hb with ⟨hnone, _⟩ |
        ⟨pos2, len2, c, cs1, cs2, hlook, hdecomp, hbmem, hchead, hcs2, hslice, hfind⟩
    · rw [Index.new] at hlook0
      rw [hnone] at hlook0
      exact absurd hlook0 (by simp)
    · rw [Index.new] at hlook0
      rw [hlook] at hlook0
      injection hlook0 with hpl
      injection hpl with hp1 hp2
      subst hp1
      subst hp2
      refine ⟨⟨c.headI.key, pos2, len2⟩, hbmem, rfl, rfl, hchead, ?_⟩
      intro b2 hb2 hb2k
      obtain ⟨d, hd, hdk⟩ := buildBlocks_mem_key b2 _ 0 hb2
      rw [hdecomp] at hd
      rcases List.mem_append.mp hd with hd1 | hd2
      · -- d before c: its elements are all below c's
        rw [hdecomp] at hb
        have hrel := (List.pairwise_append.mp hb).2.2 d hd1 c (List.mem_cons_self _ _)
        obtain ⟨q0, drest, rfl⟩ : ∃ q0 drest, d = q0 :: drest := by
          cases d with
          | nil =>
            refine absurd rfl (hne [] ?_)
            rw [hdecomp]
            exact List.mem_append_left _ hd1
          | cons q0 drest => exact ⟨q0, drest, rfl⟩
        obtain ⟨c0, crest2, rfl⟩ : ∃ c0 crest2, c = c0 :: crest2 := by
          cases c with
          | nil =>
            refine absurd rfl (hne [] ?_)
            rw [hdecomp]
            exact List.mem_append_right _ (List.mem_cons_self _ _)
          | cons c0 crest2 => exact ⟨c0, crest2, rfl⟩
        have := hrel q0 (List.mem_cons_self _ _) c0 (List.mem_cons_self _ _)
        rw [hdk]
        simp only [List.headI_cons]
        exact le_of_lt this
      · rcases List.mem_cons.mp hd2 with rfl | hd3
        · rw [hdk]
        · have := hcs2 d hd3
          rw [hdk] at hb2k
          exact absurd (lt_of_lt_of_le this hb2k) (lt_irrefl k)
  · -- every record's key finds its own block
    intro p hp
    rcases index_lookup_cases (chunksOf stride (p0 :: prest)) 0
        (InternalPair.serialize_flatten (p0 :: prest)) p.key hB hne hw hb with ⟨_, hgt⟩ |
        ⟨pos, len, c, cs1, cs2, hlook, hdecomp, hbmem, hchead, hcs2, hslice, hfind⟩
    · have := hgt p (by rw [hflat]; exact hp)
      exact absurd this (lt_irrefl _)
    · refine ⟨pos, len, ?_, c, ?_, ?_, hslice⟩
      · rw [Index.new]
        exact hlook
      · rw [hdecomp]
        exact List.mem_append_right _ (List.mem_cons_self _ _)
      · have hfp : (p0 :: prest).find? (fun q => decide (q.key = p.key)) = some p :=
          find?_of_mem_strictSorted _ hsort p hp
        have : c.find? (fun q => decide (q.key = p.key)) = some p := by
          rw [hfind, hflat]
          exact hfp
        exact List.mem_of_find?_eq_some this

/-- Claim C5 witness: the miss condition at a concrete sorted table. -/
theorem claim_C5_witness :
    Index.get (Index.new [⟨[97], some [100]⟩, ⟨[98], some [101]⟩] 1) [96] = none ↔
      ([96] : Key) <
        ([⟨[97], some [100]⟩, ⟨[98], some [101]⟩] : List InternalPair).headI.key :=
  (claim_C5_theorem [⟨[97], some [100]⟩, ⟨[98], some [101]⟩] 1 [96]
    (by unfold StrictSortedByKey; simp; decide) (by norm_num) (by simp)).1

/- Manager read path lemmas -/

theorem findSome?_eq_of_forall {α β : Type} (f g : α → Option β) (l : List α)
    (h : ∀ a ∈ l, f a = g a) : l.findSome? f = l.findSome? g := by
  induction l with
  | nil => rfl
  | cons a rest ih =>
    rw [List.findSome?_cons, List.findSome?_cons, h a (List.mem_cons_self _ _)]
    cases g a with
    | some b => rfl
    | none => exact ih (fun x hx => h x (List.mem_cons_of_mem _ hx))

/-- The manager read path is the newest-first first-match rule over the
record lists of its tables. -/
theorem SSTableManager.get_eq_firstContaining (tables : List (List InternalPair))
    (stride : Nat) (k : Key)
    (hs : ∀ t ∈ tables, StrictSortedByKey t)
    (hwf : ∀ t ∈ tables, ∀ p ∈ t, WFPair p) :
    SSTableManager.get tables stride k = firstContaining tables.reverse k := by
  unfold SSTableManager.get firstContaining
  apply findSome?_eq_of_forall
  intro t ht
  have ht2 : t ∈ tables := List.mem_reverse.mp ht
  exact Table.get_eq_find t stride k (hs t ht2) (hwf t ht2)

/-- Claim C1, confirmed: manager.get probes tables newest to oldest and
returns the first record found, live or tombstone — it equals the
newest-first first-match rule on the tables' record lists — and when no
table contains the key it returns none. -/
theorem claim_C1_theorem (tables : List (List InternalPair)) (stride : Nat) (k : Key)
    (hs : ∀ t ∈ tables, StrictSortedByKey t)
    (hwf : ∀ t ∈ tables, ∀ p ∈ t, WFPair p) :
    SSTableManager.get tables stride k = firstContaining tables.reverse k ∧
    ((∀ t ∈ tables, ∀ p ∈ t, p.key ≠ k) → SSTableManager.get tables stride k = none) := by
  have heq := SSTableManager.get_eq_firstContaining tables stride k hs hwf
  refine ⟨heq, ?_⟩
  intro habs
  rw [heq]
  unfold firstContaining
  rw [List.findSome?_eq_none]
  intro t ht
  rw [List.find?_eq_none]
  intro p hp
  simp only [decide_eq_true_eq]
  exact habs t (List.mem_reverse.mp ht) p hp

/-- Claim C1 witness: with the same key written into T1 then T2 (oldest
first), the manager returns T2's record. -/
theorem claim_C1_witness :
    SSTableManager.get [[⟨[97], some [49]⟩], [⟨[97], some [50]⟩]] 1 [97] =
      firstContaining ([[⟨[97], some [49]⟩], [⟨[97], some [50]⟩]] :
        List (List InternalPair)).reverse [97] ∧
    firstContaining ([[⟨[97], some [49]⟩], [⟨[97], some [50]⟩]] :
        List (List InternalPair)).reverse [97] = some ⟨[97], some [50]⟩ := by
  constructor
  · exact (claim_C1_theorem [[⟨[97], some [49]⟩], [⟨[97], some [50]⟩]] 1 [97]
      (by
        intro t ht
        simp only [List.mem_cons, List.not_mem_nil, or_false] at ht
        rcases ht with rfl | rfl <;> (unfold StrictSortedByKey; simp))
      (by
        intro t ht p hp
        simp only [List.mem_cons, List.not_mem_nil, or_false] at ht
        rcases ht with rfl | rfl <;>
          (simp only [List.mem_cons, List.not_mem_nil, or_false] at hp
           subst hp
           exact ⟨by norm_num, fun v hv => by
             injection hv with h2
             subst h2
             exact ⟨by norm_num, by simp⟩⟩))).1
  · decide

/-- Claim C10, confirmed: whenever an SSTable point lookup or the
manager's read path returns a record, its key equals the probe exactly —
the intra-block scan filters on key equality, so the index narrowing can
never surface a record for a different key. -/
theorem claim_C10_theorem (stride : Nat) (k : Key) :
    (∀ (pairs : List InternalPair) (p : InternalPair),
      Table.get pairs stride k = some p → p.key = k) ∧
    (∀ (tables : List (List InternalPair)) (p : InternalPair),
      SSTableManager.get tables stride k = some p → p.key = k) := by
  have htab : ∀ (pairs : List InternalPair) (p : InternalPair),
      Table.get pairs stride k = some p → p.key = k := by
    intro pairs p h
    unfold Table.get at h
    split at h
    · exact absurd h (by simp)
    · split at h
      · exact absurd h (by simp)
      · have := List.find?_some h
        simpa using this
  refine ⟨htab, ?_⟩
  intro tables p h
  unfold SSTableManager.get at h
  obtain ⟨t, _, hft⟩ := List.exists_of_findSome?_eq_some h
  exact htab t p hft

/-- Claim C10 witness: a concrete hit returns a record with the probed
key. -/
theorem claim_C10_witness : (⟨[97], some [98]⟩ : InternalPair).key = [97] :=
  (claim_C10_theorem 1 [97]).1 [⟨[97], some [98]⟩] ⟨[97], some [98]⟩
    (by
      rw [Table.get_eq_find [⟨[97], some [98]⟩] 1 [97]
        (by unfold StrictSortedByKey; simp)
        (by
          intro p hp
          simp only [List.mem_cons, List.not_mem_nil, or_false] at hp
          subst hp
          exact ⟨by norm_num, fun v hv => by
            injection hv with h2
            subst h2
            exact ⟨by norm_num, by simp⟩⟩)]
      decide)

/-- Claim C8, counterexample: a Get on a key whose newest record is a
tombstone is answered with none, the very reply an absent key gets — the
listener sends get(key).map(value).flatten(), which collapses the
tombstone — even though the manager's own lookup does see the tombstone
record. -/
theorem claim_C8_counterexample :
    SSTableManager.listen_get_reply [[⟨[107], none⟩]] 1 [107] = none ∧
    SSTableManager.listen_get_reply ([] : List (List InternalPair)) 1 [107] = none ∧
    SSTableManager.get [[⟨[107], none⟩]] 1 [107] = some ⟨[107], none⟩ := by
  have hget : SSTableManager.get [[⟨[107], none⟩]] 1 [107] = some ⟨[107], none⟩ := by
    rw [SSTableManager.get_eq_firstContaining [[⟨[107], none⟩]] 1 [107]
      (by
        intro t ht
        simp only [List.mem_cons, List.not_mem_nil, or_false] at ht
        subst ht
        unfold StrictSortedByKey
        simp)
      (by
        intro t ht p hp
        simp only [List.mem_cons, List.not_mem_nil, or_false] at ht
        subst ht
        simp only [List.mem_cons, List.not_mem_nil, or_false] at hp
        subst hp
        exact ⟨by norm_num, fun v hv => by simp at hv⟩)]
    decide
  refine ⟨?_, by decide, hget⟩
  unfold SSTableManager.listen_get_reply
  rw [hget]
  rfl

/-- Claim C8 as amended: the listener's Get reply is
get(key).map(value).flatten(): Some(value) when the newest record for the
key is live, and None both when the newest record is a tombstone and when
no table contains the key — the reply does not distinguish a tombstone
from absence. -/
theorem claim_C8_theorem (tables : List (List InternalPair)) (stride : Nat) (k : Key)
    (hs : ∀ t ∈ tables, StrictSortedByKey t)
    (hwf : ∀ t ∈ tables, ∀ p ∈ t, WFPair p) :
    SSTableManager.listen_get_reply tables stride k =
      ((firstContaining tables.reverse k).map InternalPair.value).join ∧
    (∀ k2, firstContaining tables.reverse k = some ⟨k2, none⟩ →
      SSTableManager.listen_get_reply tables stride k = none) ∧
    (firstContaining tables.reverse k = none →
      SSTableManager.listen_get_reply tables stride k = none) ∧
    (∀ k2 v, firstContaining tables.reverse k = some ⟨k2, some v⟩ →
      SSTableManager.listen_get_reply tables stride k = some v) := by
  have heq := SSTableManager.get_eq_firstContaining tables stride k hs hwf
  unfold SSTableManager.listen_get_reply
  rw [heq]
  refine ⟨rfl, ?_, ?_, ?_⟩
  · intro k2 hfc
    rw [hfc]
    rfl
  · intro hfc
    rw [hfc]
    rfl
  · intro k2 v hfc
    rw [hfc]
    rfl

/-- Claim C8 witness: the amended reply rule at a concrete live record. -/
theorem claim_C8_witness :
    SSTableManager.listen_get_reply [[⟨[97], some [99]⟩]] 1 [97] =
      ((firstContaining ([[⟨[97], some [99]⟩]] :
          List (List InternalPair)).reverse [97]).map InternalPair.value).join :=
  (claim_C8_theorem [[⟨[97], some [99]⟩]] 1 [97]
    (by
      intro t ht
      simp only [List.mem_cons, List.not_mem_nil, or_false] at ht
      subst ht
      unfold StrictSortedByKey
      simp)
    (by
      intro t ht p hp
      simp only [List.mem_cons, List.not_mem_nil, or_false] at ht
      subst ht
      simp only [List.mem_cons, List.not_mem_nil, or_false] at hp
      subst hp
      exact ⟨by norm_num, fun v hv => by
        injection hv with h2
        subst h2
        exact ⟨by norm_num, by simp⟩⟩)).1

/- Compaction merge lemmas -/

theorem find?_congr_mem {α : Type} (p q : α → Bool) (l : List α)
    (h : ∀ x ∈ l, p x = q x) : l.find? p = l.find? q := by
  induction l with
  | nil => rfl
  | cons a rest ih =>
    cases hpa : p a with
    | true =>
      rw [List.find?_cons_of_pos _ hpa,
        List.find?_cons_of_pos _ (by rw [← h a (List.mem_cons_self _ _)]; exact hpa)]
    | false =>
      rw [List.find?_cons_of_neg _ (by simp [hpa]),
        List.find?_cons_of_neg _ (by
          rw [← h a (List.mem_cons_self _ _)]
          simp [hpa])]
      exact ih (fun x hx => h x (List.mem_cons_of_mem _ hx))

theorem min_by_key_is_min (ps : List InternalPair) (m : InternalPair)
    (h : min_by_key ps = some m) : m ∈ ps ∧ ∀ q ∈ ps, m.key ≤ q.key := by
  unfold min_by_key at h
  refine ⟨List.mem_of_find?_eq_some h, ?_⟩
  have := List.find?_some h
  simpa using this

theorem exists_min_pair (ps : List InternalPair) (hne : ps ≠ []) :
    ∃ m ∈ ps, ∀ q ∈ ps, m.key ≤ q.key := by
  induction ps with
  | nil => exact absurd rfl hne
  | cons a rest ih =>
    by_cases hrest : rest = []
    · subst hrest
      refine ⟨a, List.mem_cons_self _ _, ?_⟩
      intro q hq
      rcases List.mem_cons.mp hq with rfl | hq2
      · exact le_refl _
      · simp at hq2
    · obtain ⟨m, hm, hmin⟩ := ih hrest
      by_cases ham : a.key ≤ m.key
      · refine ⟨a, List.mem_cons_self _ _, ?_⟩
        intro q hq
        rcases List.mem_cons.mp hq with rfl | hq2
        · exact le_refl _
        · exact le_trans ham (hmin q hq2)
      · refine ⟨m, List.mem_cons_of_mem _ hm, ?_⟩
        intro q hq
        rcases List.mem_cons.mp hq with rfl | hq2
        · exact le_of_lt (lt_of_not_le ham)
        · exact hmin q hq2

theorem min_by_key_eq_none (ps : List InternalPair)
    (h : min_by_key ps = none) : ps = [] := by
  by_contra hne
  obtain ⟨m, hm, hmin⟩ := exists_min_pair ps hne
  unfold min_by_key at h
  rw [List.find?_eq_none] at h
  exact absurd (by simpa using hmin) (by simpa using h m hm)

theorem mergeLoop_eq_none (ls : List (List InternalPair))
    (h : min_by_key (ls.filterMap List.head?) = none) : mergeLoop ls = [] := by
  conv_lhs => rw [mergeLoop]
  split
  · rfl
  · next m heq =>
    rw [h] at heq
    exact absurd heq (by simp)

theorem mergeLoop_eq_some (ls : List (List InternalPair)) (m : InternalPair)
    (h : min_by_key (ls.filterMap List.head?) = some m) :
    mergeLoop ls = m :: mergeLoop (advanceMerge m.key ls) := by
  conv_lhs => rw [mergeLoop]
  split
  · next heq =>
    rw [h] at heq
    exact absurd heq (by simp)
  · next m2 heq =>
    rw [h] at heq
    injection heq with heq2
    rw [heq2]

theorem advanceOne_subset (k : Key) (l : List InternalPair) :
    ∀ p ∈ advanceOne k l, p ∈ l := by
  intro p hp
  cases l with
  | nil => simpa [advanceOne] using hp
  | cons a rest =>
    unfold advanceOne at hp
    dsimp only at hp
    by_cases ha : a.key = k
    · rw [if_pos ha] at hp
      exact List.mem_cons_of_mem _ hp
    · rw [if_neg ha] at hp
      exact hp

theorem advanceOne_pairwise (k : Key) (l : List InternalPair)
    (h : l.Pairwise (fun p q : InternalPair => p.key < q.key)) :
    (advanceOne k l).Pairwise (fun p q : InternalPair => p.key < q.key) := by
  cases l with
  | nil => simpa [advanceOne]
  | cons a rest =>
    unfold advanceOne
    dsimp only
    by_cases ha : a.key = k
    · rw [if_pos ha]
      exact (List.pairwise_cons.mp h).2
    · rw [if_neg ha]
      exact h

theorem advance_totalLen_lt (ls : List (List InternalPair)) (m : InternalPair)
    (h : min_by_key (ls.filterMap List.head?) = some m) :
    totalLen (advanceMerge m.key ls) < totalLen ls := by
  unfold min_by_key at h
  have hm : m ∈ ls.filterMap List.head? := List.mem_of_find?_eq_some h
  rw [List.mem_filterMap] at hm
  obtain ⟨l, hl, hhead⟩ := hm
  have hone : ∀ a : List InternalPair, (advanceOne m.key a).length ≤ a.length := by
    intro a
    cases a with
    | nil => simp [advanceOne]
    | cons p rest =>
      unfold advanceOne
      dsimp only
      split
      · exact Nat.le_succ _
      · exact le_refl _
  have hle : ∀ xs : List (List InternalPair),
      totalLen (advanceMerge m.key xs) ≤ totalLen xs := by
    intro xs
    induction xs with
    | nil => simp [advanceMerge, totalLen]
    | cons a as ih =>
      simp only [advanceMerge, totalLen, List.map_cons, List.sum_cons] at ih ⊢
      exact Nat.add_le_add (hone a) ih
  obtain ⟨t, rfl⟩ : ∃ t, l = m :: t := by
    cases l with
    | nil => simp at hhead
    | cons p rest =>
      simp only [List.head?_cons, Option.some.injEq] at hhead
      exact ⟨rest, by rw [hhead]⟩
  clear h
  induction ls with
  | nil => simp at hl
  | cons a as ih =>
    simp only [advanceMerge, totalLen, List.map_cons, List.sum_cons] at ih ⊢
    rcases List.mem_cons.mp hl with h1 | h2
    · rw [← h1]
      have h3 : advanceOne m.key (m :: t) = t := by simp [advanceOne]
      rw [h3]
      have h4 := hle as
      simp only [advanceMerge, totalLen] at h4
      simp only [List.length_cons]
      omega
    · have h5 := hone a
      have h6 := ih h2
      omega

theorem firstContaining_advance (ls : List (List InternalPair)) (mk k : Key)
    (hk : k ≠ mk) :
    firstContaining (advanceMerge mk ls) k = firstContaining ls k := by
  unfold firstContaining advanceMerge
  rw [List.findSome?_map]
  apply findSome?_eq_of_forall
  intro l hl
  show (advanceOne mk l).find? (fun p => decide (p.key = k)) =
    l.find? (fun p => decide (p.key = k))
  cases l with
  | nil => simp [advanceOne]
  | cons p rest =>
    unfold advanceOne
    dsimp only
    by_cases hp : p.key = mk
    · rw [if_pos hp]
      rw [List.find?_cons_of_neg _ (by simp [hp]; exact fun hc => hk hc.symm)]
    · rw [if_neg hp]

theorem firstContaining_min (ls : List (List InternalPair)) (m : InternalPair)
    (hw : ∀ l ∈ ls, l.Pairwise (fun p q : InternalPair => p.key < q.key))
    (h : min_by_key (ls.filterMap List.head?) = some m) :
    firstContaining ls m.key = some m := by
  induction ls with
  | nil => simp [min_by_key, List.find?] at h
  | cons l ls ih =>
    cases l with
    | nil =>
      have h2 : min_by_key (ls.filterMap List.head?) = some m := by
        simpa [List.filterMap_cons] using h
      unfold firstContaining
      rw [List.findSome?_cons]
      exact ih (fun l hl => hw l (List.mem_cons_of_mem _ hl)) h2
    | cons p lrest =>
      have hheads : (((p :: lrest) :: ls).filterMap List.head?) =
          p :: ls.filterMap List.head? := by simp [List.filterMap_cons]
      rw [hheads] at h
      unfold min_by_key at h
      by_cases hpred : (∀ q ∈ p :: ls.filterMap List.head?, p.key ≤ q.key)
      · rw [List.find?_cons_of_pos _ (by simpa using hpred)] at h
        injection h with h2
        subst h2
        unfold firstContaining
        rw [List.findSome?_cons]
        rw [List.find?_cons_of_pos _ (by simp)]
      · rw [List.find?_cons_of_neg _ (by simpa using hpred)] at h
        have hmmem : m ∈ ls.filterMap List.head? := List.mem_of_find?_eq_some h
        have hmbig : ∀ q ∈ p :: ls.filterMap List.head?, m.key ≤ q.key := by
          simpa using List.find?_some h
        have hmp : m.key < p.key := by
          push_neg at hpred
          obtain ⟨q, hq, hqlt⟩ := hpred
          rcases List.mem_cons.mp hq with rfl | hq2
          · exact absurd hqlt (lt_irrefl _)
          · exact lt_of_le_of_lt (hmbig q (List.mem_cons_of_mem _ hq2)) hqlt
        have hmin2 : min_by_key (ls.filterMap List.head?) = some m := by
          unfold min_by_key
          refine (find?_congr_mem _ _ _ ?_).trans h
          intro x hx
          rw [decide_eq_decide]
          constructor
          · intro hall q hq
            rcases List.mem_cons.mp hq with rfl | hq2
            · exact le_of_lt (lt_of_le_of_lt (hall m hmmem) hmp)
            · exact hall q hq2
          · intro hall q hq
            exact hall q (List.mem_cons_of_mem _ hq)
        have ihres := ih (fun l hl => hw l (List.mem_cons_of_mem _ hl)) hmin2
        unfold firstContaining at ihres ⊢
        rw [List.findSome?_cons]
        have hfindl : (p :: lrest).find? (fun q => decide (q.key = m.key)) = none := by
          rw [List.find?_eq_none]
          intro x hx
          simp only [decide_eq_true_eq]
          intro hxk
          rcases List.mem_cons.mp hx with rfl | hx2
          · exact absurd (hxk ▸ hmp) (lt_irrefl _)
          · have hpx := (List.pairwise_cons.mp (hw _ (List.mem_cons_self _ _))).1 x hx2
            rw [hxk] at hpx
            exact absurd (lt_trans hpx hmp) (lt_irrefl _)
        rw [hfindl]
        exact ihres

/-- Full characterization of the compaction merge loop on iterators whose
record lists are each strictly sorted by key: every output record comes
from some input iterator, the output is strictly sorted by key (hence
unique per key), and looking any key up in the output is exactly the
newest-first first-match rule over the input iterators. -/
theorem mergeLoop_spec (n : Nat) : ∀ ls : List (List InternalPair), totalLen ls ≤ n →
    (∀ l ∈ ls, l.Pairwise (fun p q : InternalPair => p.key < q.key)) →
    (∀ p ∈ mergeLoop ls, ∃ l ∈ ls, p ∈ l) ∧
    (mergeLoop ls).Pairwise (fun p q : InternalPair => p.key < q.key) ∧
    (∀ k, (mergeLoop ls).find? (fun p => decide (p.key = k)) = firstContaining ls k) := by
  induction n with
  | zero =>
    intro ls htot hw
    have hempty : ∀ l ∈ ls, l = [] := by
      intro l hl
      have : l.length = 0 := by
        have h1 : l.length ≤ totalLen ls := by
          unfold totalLen
          exact List.le_sum_of_mem (List.mem_map_of_mem _ hl)
        omega
      exact List.length_eq_zero.mp this
    have hheads : ls.filterMap List.head? = [] := by
      rw [List.filterMap_eq_nil]
      intro l hl
      rw [hempty l hl]
      rfl
    have hmin : min_by_key (ls.filterMap List.head?) = none := by
      rw [hheads]
      rfl
    rw [mergeLoop_eq_none ls hmin]
    refine ⟨by simp, by simp, ?_⟩
    intro k
    rw [List.find?_nil]
    symm
    unfold firstContaining
    rw [List.findSome?_eq_none]
    intro l hl
    rw [hempty l hl]
    rfl
  | succ n ih =>
    intro ls htot hw
    cases hm : min_by_key (ls.filterMap List.head?) with
    | none =>
      have hheads : ls.filterMap List.head? = [] := min_by_key_eq_none _ hm
      have hempty : ∀ l ∈ ls, l = [] := by
        intro l hl
        cases hcl : l with
        | nil => rfl
        | cons p rest =>
          have : p ∈ ls.filterMap List.head? := by
            rw [List.mem_filterMap]
            exact ⟨l, hl, by rw [hcl]; rfl⟩
          rw [hheads] at this
          simp at this
      rw [mergeLoop_eq_none ls hm]
      refine ⟨by simp, by simp, ?_⟩
      intro k
      rw [List.find?_nil]
      symm
      unfold firstContaining
      rw [List.findSome?_eq_none]
      intro l hl
      rw [hempty l hl]
      rfl
    | some m =>
      rw [mergeLoop_eq_some ls m hm]
      obtain ⟨hmmem, hmle⟩ := min_by_key_is_min _ _ hm
      have hglobal : ∀ l ∈ ls, ∀ p ∈ l, m.key ≤ p.key := by
        intro l hl p hp
        obtain ⟨q0, rest, rfl⟩ : ∃ q0 rest, l = q0 :: rest := by
          cases l with
          | nil => simp at hp
          | cons q0 rest => exact ⟨q0, rest, rfl⟩
        have hq0 : m.key ≤ q0.key :=
          hmle q0 (List.mem_filterMap.mpr ⟨q0 :: rest, hl, rfl⟩)
        rcases List.mem_cons.mp hp with rfl | hp2
        · exact hq0
        · exact le_of_lt (lt_of_le_of_lt hq0
            ((List.pairwise_cons.mp (hw _ hl)).1 p hp2))
      have hadvgt : ∀ l ∈ ls, ∀ q ∈ advanceOne m.key l, m.key < q.key := by
        intro l hl q hq
        obtain ⟨q0, rest, rfl⟩ : ∃ q0 rest, l = q0 :: rest := by
          cases l with
          | nil => simp [advanceOne] at hq
          | cons q0 rest => exact ⟨q0, rest, rfl⟩
        unfold advanceOne at hq
        dsimp only at hq
        by_cases hq0 : q0.key = m.key
        · rw [if_pos hq0] at hq
          have := (List.pairwise_cons.mp (hw _ hl)).1 q hq
          rw [hq0] at this
          exact this
        · rw [if_neg hq0] at hq
          rcases List.mem_cons.mp hq with rfl | hq2
          · exact lt_of_le_of_ne (hglobal _ hl q (List.mem_cons_self _ _))
              (fun hcontra => hq0 hcontra.symm)
          · exact lt_of_lt_of_le
              (lt_of_le_of_ne (hglobal _ hl q0 (List.mem_cons_self _ _))
                (fun hcontra => hq0 hcontra.symm))
              (le_of_lt ((List.pairwise_cons.mp (hw _ hl)).1 q hq2))
      have hwadv : ∀ l ∈ advanceMerge m.key ls,
          l.Pairwise (fun p q : InternalPair => p.key < q.key) := by
        intro l hl
        unfold advanceMerge at hl
        obtain ⟨l0, hl0, rfl⟩ := List.mem_map.mp hl
        exact advanceOne_pairwise _ _ (hw l0 hl0)
      have htot2 : totalLen (advanceMerge m.key ls) ≤ n := by
        have := advance_totalLen_lt ls m hm
        omega
      obtain ⟨ihmem, ihpw, ihfind⟩ := ih (advanceMerge m.key ls) htot2 hwadv
      have hmemadv : ∀ p ∈ mergeLoop (advanceMerge m.key ls), ∃ l ∈ ls, p ∈ l := by
        intro p hp
        obtain ⟨l', hl', hpl'⟩ := ihmem p hp
        unfold advanceMerge at hl'
        obtain ⟨l0, hl0, rfl⟩ := List.mem_map.mp hl'
        exact ⟨l0, hl0, advanceOne_subset _ _ p hpl'⟩
      have hgtadv : ∀ p ∈ mergeLoop (advanceMerge m.key ls), m.key < p.key := by
        intro p hp
        obtain ⟨l', hl', hpl'⟩ := ihmem p hp
        unfold advanceMerge at hl'
        obtain ⟨l0, hl0, rfl⟩ := List.mem_map.mp hl'
        exact hadvgt l0 hl0 p hpl'
      refine ⟨?_, ?_, ?_⟩
      · intro p hp
        rcases List.mem_cons.mp hp with rfl | hp2
        · rw [List.mem_filterMap] at hmmem
          obtain ⟨l, hl, hhead⟩ := hmmem
          exact ⟨l, hl, List.mem_of_mem_head? hhead⟩
        · exact hmemadv p hp2
      · rw [List.pairwise_cons]
        exact ⟨hgtadv, ihpw⟩
      · intro k
        by_cases hk : k = m.key
        · subst hk
          rw [List.find?_cons_of_pos _ (by simp)]
          symm
          exact firstContaining_min ls m hw hm
        · rw [List.find?_cons_of_neg _ (by simpa using fun hc => hk hc.symm)]
          rw [ihfind k]
          exact firstContaining_advance ls m.key k hk

/-- Claim C2, counterexample: the claim quantifies over any SSTables with
sorted unique records, but when every input table is empty (sorted and
unique vacuously) compact_inner panics on the unwrap inside its first loop
iteration instead of producing the empty merged output; the panic is
modelled as none, so no merged output exists. -/
theorem claim_C2_counterexample :
    SSTableManager.compact_pairs [[], []] = none ∧
    ¬ ∃ out, SSTableManager.compact_pairs [[], []] = some out := by
  have h : SSTableManager.compact_pairs [[], []] = none := by rfl
  exact ⟨h, fun ⟨out, hout⟩ => by rw [h] at hout; exact absurd hout (by simp)⟩

/-- Claim C2 as amended: for input SSTables whose record sequences are
sorted and unique-by-key, at least one of them nonempty, compaction merge
produces an output that is strictly sorted by key (hence one record per
key), whose key set is exactly the union of the inputs' key sets, and in
which the record for each key is the one from the newest input table
containing the key (tombstones preserved like any record): looking up any
key in the output equals the newest-first first-match rule over the
tables. -/
theorem claim_C2_theorem (tables : List (List InternalPair))
    (hs : ∀ t ∈ tables, StrictSortedByKey t)
    (hne : ∃ t ∈ tables, t ≠ []) :
    ∃ out, SSTableManager.compact_pairs tables = some out ∧
      out.Pairwise (fun p q : InternalPair => p.key < q.key) ∧
      (∀ k, out.find? (fun p => decide (p.key = k)) =
        firstContaining tables.reverse k) ∧
      (∀ k, (∃ p ∈ out, p.key = k) ↔ (∃ t ∈ tables, ∃ p ∈ t, p.key = k)) := by
  unfold SSTableManager.compact_pairs SSTableManager.compact_inner
  have hhne : tables.reverse.filterMap List.head? ≠ [] := by
    obtain ⟨t, ht, htne⟩ := hne
    obtain ⟨p0, rest, rfl⟩ : ∃ p0 rest, t = p0 :: rest := by
      cases t with
      | nil => exact absurd rfl htne
      | cons p0 rest => exact ⟨p0, rest, rfl⟩
    have : p0 ∈ tables.reverse.filterMap List.head? := by
      rw [List.mem_filterMap]
      exact ⟨p0 :: rest, List.mem_reverse.mpr ht, rfl⟩
    exact List.ne_nil_of_mem this
  rw [if_neg hhne]
  obtain ⟨hmem, hpw, hfind⟩ := mergeLoop_spec (totalLen tables.reverse) tables.reverse
    (le_refl _)
    (by
      intro l hl
      have := hs l (List.mem_reverse.mp hl)
      unfold StrictSortedByKey at this
      exact this)
  refine ⟨mergeLoop tables.reverse, rfl, hpw, hfind, ?_⟩
  intro k
  constructor
  · rintro ⟨p, hp, hpk⟩
    have h1 : (mergeLoop tables.reverse).find? (fun q => decide (q.key = k)) ≠ none := by
      intro hcontra
      rw [List.find?_eq_none] at hcontra
      exact absurd (by simpa using hpk) (hcontra p hp)
    rw [hfind k] at h1
    unfold firstContaining at h1
    cases hfc : tables.reverse.findSome?
        (fun t => t.find? (fun q => decide (q.key = k))) with
    | none => exact absurd hfc h1
    | some q =>
      obtain ⟨t, ht, hft⟩ := List.exists_of_findSome?_eq_some hfc
      exact ⟨t, List.mem_reverse.mp ht, q, List.mem_of_find?_eq_some hft,
        by simpa using List.find?_some hft⟩
  · rintro ⟨t, ht, p, hp, hpk⟩
    have h1 : firstContaining tables.reverse k ≠ none := by
      unfold firstContaining
      intro hcontra
      rw [List.findSome?_eq_none] at hcontra
      have := hcontra t (List.mem_reverse.mpr ht)
      rw [List.find?_eq_none] at this
      exact absurd (by simpa using hpk) (this p hp)
    rw [← hfind k] at h1
    cases hfo : (mergeLoop tables.reverse).find? (fun q => decide (q.key = k)) with
    | none => exact absurd hfo h1
    | some q =>
      exact ⟨q, List.mem_of_find?_eq_some hfo, by simpa using List.find?_some hfo⟩

/-- Claim C2 witness: compaction of a live record under a newer tombstone
for the same key keeps the tombstone and satisfies the newest-wins
first-match characterization. -/
theorem claim_C2_witness :
    ∃ out, SSTableManager.compact_pairs [[⟨[97], some [49]⟩], [⟨[97], none⟩]] = some out ∧
      out.Pairwise (fun p q : InternalPair => p.key < q.key) ∧
      (∀ k, out.find? (fun p => decide (p.key = k)) =
        firstContaining ([[⟨[97], some [49]⟩], [⟨[97], none⟩]] :
          List (List InternalPair)).reverse k) ∧
      (∀ k, (∃ p ∈ out, p.key = k) ↔
        (∃ t ∈ ([[⟨[97], some [49]⟩], [⟨[97], none⟩]] : List (List InternalPair)),
          ∃ p ∈ t, p.key = k)) :=
  claim_C2_theorem [[⟨[97], some [49]⟩], [⟨[97], none⟩]]
    (by
      intro t ht
      simp only [List.mem_cons, List.not_mem_nil, or_false] at ht
      rcases ht with rfl | rfl <;> (unfold StrictSortedByKey; simp))
    (by decide)
